import Mathlib

/-!
Verification of the auth-sdk token codec (`src/source/index.ts`).

The development shallowly embeds the TypeScript source together with the
behaviour of its library dependencies (crypto-js, json-stable-stringify,
JSON.parse, dayjs, zod).  JavaScript strings are modelled as `List Char`
(sequences of unicode scalar values), JavaScript values that flow through
the codec as the `Json` inductive type (numbers restricted to integers:
floating-point semantics are out of scope of the embedding), bytes as
`Nat` below 256, and the wall clock / timezone environment as explicit
`now` / `tz` parameters.  Thrown exceptions are modelled with `Except`,
`null` results with `Option`.
-/

namespace AuthSdk

/-- JavaScript strings, modelled as lists of unicode scalar values. -/
abbrev Str := List Char

/-- JSON-compatible JavaScript values (numbers restricted to integers). -/
inductive Json where
  | null : Json
  | bool : Bool → Json
  | num : Int → Json
  | str : Str → Json
  | arr : List Json → Json
  | obj : List (Str × Json) → Json

/-- First-occurrence lookup in a JavaScript object's property list. -/
def jLookup : List (Str × Json) → Str → Option Json
  | [], _ => none
  | (k, v) :: rest, key => if k = key then some v else jLookup rest key

/-- Does the property list bind the key? -/
def keyMem (k : Str) : List (Str × Json) → Bool
  | [] => false
  | (k2, _) :: rest => decide (k2 = k) || keyMem k rest

/-- Property lists of JavaScript objects never bind a key twice. -/
def nodupKeys : List (Str × Json) → Bool
  | [] => true
  | (k, _) :: rest => !(keyMem k rest) && nodupKeys rest

mutual

/-- Well-formedness of a modelled JavaScript value: no object binds a key twice. -/
def jsonWF : Json → Bool
  | .null => true
  | .bool _ => true
  | .num _ => true
  | .str _ => true
  | .arr xs => jsonWFList xs
  | .obj kvs => nodupKeys kvs && jsonWFKvs kvs

/-- Well-formedness of every element of a list of values. -/
def jsonWFList : List Json → Bool
  | [] => true
  | x :: xs => jsonWF x && jsonWFList xs

/-- Well-formedness of every value bound in a property list. -/
def jsonWFKvs : List (Str × Json) → Bool
  | [] => true
  | (_, v) :: rest => jsonWF v && jsonWFKvs rest

end

/-- Lexicographic strict order on strings by unicode scalar value. -/
def strLt : Str → Str → Bool
  | [], [] => false
  | [], _ :: _ => true
  | _ :: _, [] => false
  | a :: as, b :: bs =>
    if a.toNat < b.toNat then true
    else if b.toNat < a.toNat then false
    else strLt as bs

/-- Non-strict lexicographic order on strings. -/
def strLe (a b : Str) : Bool := !(strLt b a)

/-- Insert a property into a key-sorted property list. -/
def insertKv (p : Str × Json) : List (Str × Json) → List (Str × Json)
  | [] => [p]
  | q :: rest => if strLe p.1 q.1 then p :: q :: rest else q :: insertKv p rest

/-- Insertion sort of a property list by key. -/
def sortKvs : List (Str × Json) → List (Str × Json)
  | [] => []
  | p :: rest => insertKv p (sortKvs rest)

mutual

/-- Canonical form of a value: object keys sorted recursively.  Two
well-formed values denote the same JavaScript value (up to property
insertion order) exactly when their canonical forms are equal. -/
def canon : Json → Json
  | .null => .null
  | .bool b => .bool b
  | .num n => .num n
  | .str s => .str s
  | .arr xs => .arr (canonList xs)
  | .obj kvs => .obj (sortKvs (canonKvs kvs))

/-- Canonical form of each element of a list. -/
def canonList : List Json → List Json
  | [] => []
  | x :: xs => canon x :: canonList xs

/-- Canonical form of each value of a property list (keys untouched). -/
def canonKvs : List (Str × Json) → List (Str × Json)
  | [] => []
  | (k, v) :: rest => (k, canon v) :: canonKvs rest

end

/-- Semantic equality of modelled JavaScript values: equal up to the
order in which object properties were inserted, at every nesting level. -/
def jsonEqv (a b : Json) : Prop := canon a = canon b

/-- Model of the JavaScript `token.split(':')` (String.prototype.split
with a single-character separator; never returns an empty list). -/
def splitColon (s : Str) : List Str :=
  match s with
  | [] => [[]]
  | c :: rest =>
    match splitColon rest with
    | [] => [[]]
    | t :: ts => if c = ':' then [] :: t :: ts else (c :: t) :: ts

/-- UTF-8 encoding of one scalar value (crypto-js `enc.Utf8.parse`). -/
def utf8EncodeChar (c : Char) : List Nat :=
  if c.toNat < 128 then [c.toNat]
  else if c.toNat < 2048 then [192 + c.toNat / 64, 128 + c.toNat % 64]
  else if c.toNat < 65536 then
    [224 + c.toNat / 4096, 128 + c.toNat / 64 % 64, 128 + c.toNat % 64]
  else
    [240 + c.toNat / 262144, 128 + c.toNat / 4096 % 64, 128 + c.toNat / 64 % 64, 128 + c.toNat % 64]

/-- UTF-8 encoding of a string as a byte list. -/
def utf8Encode : Str → List Nat
  | [] => []
  | c :: rest => utf8EncodeChar c ++ utf8Encode rest

/-- Is the byte a UTF-8 continuation byte? -/
def isContByte (b : Nat) : Bool := 128 ≤ b && b < 192

/-- Continuation of a two-byte UTF-8 sequence (the recursive call is
passed in as `dec`). -/
def utf8Cont1 (dec : List Nat → Option Str) (b : Nat) : List Nat → Option Str
  | b2 :: bs2 =>
    if isContByte b2 then
      (dec bs2).map (fun s => Char.ofNat ((b - 192) * 64 + (b2 - 128)) :: s)
    else none
  | [] => none

/-- Continuation of a three-byte UTF-8 sequence (overlong forms and
surrogate values rejected). -/
def utf8Cont2 (dec : List Nat → Option Str) (b : Nat) : List Nat → Option Str
  | b2 :: b3 :: bs3 =>
    if isContByte b2 && isContByte b3 then
      if 2048 ≤ (b - 224) * 4096 + (b2 - 128) * 64 + (b3 - 128) &&
          !(55296 ≤ (b - 224) * 4096 + (b2 - 128) * 64 + (b3 - 128) &&
            (b - 224) * 4096 + (b2 - 128) * 64 + (b3 - 128) < 57344) then
        (dec bs3).map (fun s => Char.ofNat ((b - 224) * 4096 + (b2 - 128) * 64 + (b3 - 128)) :: s)
      else none
    else none
  | _ => none

/-- Continuation of a four-byte UTF-8 sequence (overlong and
out-of-range values rejected). -/
def utf8Cont3 (dec : List Nat → Option Str) (b : Nat) : List Nat → Option Str
  | b2 :: b3 :: b4 :: bs4 =>
    if isContByte b2 && isContByte b3 && isContByte b4 then
      if 65536 ≤ (b - 240) * 262144 + (b2 - 128) * 4096 + (b3 - 128) * 64 + (b4 - 128) &&
          (b - 240) * 262144 + (b2 - 128) * 4096 + (b3 - 128) * 64 + (b4 - 128) < 1114112 then
        (dec bs4).map (fun s =>
          Char.ofNat ((b - 240) * 262144 + (b2 - 128) * 4096 + (b3 - 128) * 64 + (b4 - 128)) :: s)
      else none
    else none
  | _ => none

/-- Fuel-driven strict UTF-8 decoding loop; the fuel bounds the number
of decoded characters and the callers pass the byte count, which always
suffices. -/
def utf8DecodeGo : Nat → List Nat → Option Str
  | _, [] => some []
  | 0, _ :: _ => none
  | fuel + 1, b :: bs =>
    if b < 128 then (utf8DecodeGo fuel bs).map (fun s => Char.ofNat b :: s)
    else if b < 194 then none
    else if b < 224 then utf8Cont1 (utf8DecodeGo fuel) b bs
    else if b < 240 then utf8Cont2 (utf8DecodeGo fuel) b bs
    else if b < 245 then utf8Cont3 (utf8DecodeGo fuel) b bs
    else none

/-- Strict UTF-8 decoding (crypto-js `enc.Utf8.stringify`, which uses the
`decodeURIComponent(escape(..))` idiom): `none` models the
"Malformed UTF-8 data" exception on any ill-formed byte sequence
(stray continuation bytes, overlong forms, surrogates, out of range). -/
def utf8Decode (bs : List Nat) : Option Str := utf8DecodeGo bs.length bs

/-- The crypto-js url-safe base64 alphabet (64 characters, no padding). -/
def b64Alphabet : Str :=
  "ABCDEFGHIJKLMNOPQRSTUVWXYZabcdefghijklmnopqrstuvwxyz0123456789-_".toList

/-- Character of a 6-bit group. -/
def b64Char (n : Nat) : Char := b64Alphabet.getD n 'A'

/-- Index of a character in the alphabet.  Characters outside the
alphabet map to 0, mirroring crypto-js's reverse map, whose absent
entries coerce to 0 under JavaScript bit operations. -/
def b64Idx (c : Char) : Nat :=
  let i := b64Alphabet.findIdx (fun d => d = c)
  if i < 64 then i else 0

/-- Base64url encoding of a byte list (crypto-js `enc.Base64url.stringify`
with the url-safe map: no padding characters). -/
def b64uStringify : List Nat → Str
  | [] => []
  | [b1] => [b64Char (b1 / 4), b64Char (b1 % 4 * 16)]
  | [b1, b2] => [b64Char (b1 / 4), b64Char (b1 % 4 * 16 + b2 / 16), b64Char (b2 % 16 * 4)]
  | b1 :: b2 :: b3 :: rest =>
    b64Char (b1 / 4) :: b64Char (b1 % 4 * 16 + b2 / 16) ::
    b64Char (b2 % 16 * 4 + b3 / 64) :: b64Char (b3 % 64) :: b64uStringify rest

/-- Base64url decoding to a byte list (crypto-js `enc.Base64url.parse`):
lenient, never fails; a char at position `i` with `i % 4 ≠ 0` yields the
byte combining it with its predecessor, so 4 chars give 3 bytes, 3 give
2, 2 give 1 and a single leftover char gives none. -/
def b64uParseBytes : Str → List Nat
  | c0 :: c1 :: c2 :: c3 :: rest =>
    (b64Idx c0 * 4 + b64Idx c1 / 16) % 256 ::
    (b64Idx c1 % 16 * 16 + b64Idx c2 / 4) % 256 ::
    (b64Idx c2 % 4 * 64 + b64Idx c3) % 256 :: b64uParseBytes rest
  | [c0, c1, c2] =>
    [(b64Idx c0 * 4 + b64Idx c1 / 16) % 256, (b64Idx c1 % 16 * 16 + b64Idx c2 / 4) % 256]
  | [c0, c1] => [(b64Idx c0 * 4 + b64Idx c1 / 16) % 256]
  | _ => []

/-- Truncation to a 32-bit word. -/
def w32 (n : Nat) : Nat := n % 4294967296

/-- Right rotation of a 32-bit word. -/
def rotr (k x : Nat) : Nat := (x >>> k) ||| w32 (x <<< (32 - k))

/-- Bitwise complement of a 32-bit word. -/
def wNot (x : Nat) : Nat := 4294967295 ^^^ x

/-- SHA-256 round constants. -/
def sha256K : List Nat := [
  1116352408, 1899447441, 3049323471, 3921009573, 961987163, 1508970993, 2453635748, 2870763221,
  3624381080, 310598401, 607225278, 1426881987, 1925078388, 2162078206, 2614888103, 3248222580,
  3835390401, 4022224774, 264347078, 604807628, 770255983, 1249150122, 1555081692, 1996064986,
  2554220882, 2821834349, 2952996808, 3210313671, 3336571891, 3584528711, 113926993, 338241895,
  666307205, 773529912, 1294757372, 1396182291, 1695183700, 1986661051, 2177026350, 2456956037,
  2730485921, 2820302411, 3259730800, 3345764771, 3516065817, 3600352804, 4094571909, 275423344,
  430227734, 506948616, 659060556, 883997877, 958139571, 1322822218, 1537002063, 1747873779,
  1955562222, 2024104815, 2227730452, 2361852424, 2428436474, 2756734187, 3204031479, 3329325298]

/-- SHA-256 working state (eight 32-bit words). -/
structure Hash8 where
  a : Nat
  b : Nat
  c : Nat
  d : Nat
  e : Nat
  f : Nat
  g : Nat
  h : Nat

/-- SHA-256 initial hash value. -/
def sha256Init : Hash8 :=
  ⟨1779033703, 3144134277, 1013904242, 2773480762, 1359893119, 2600822924, 528734635, 1541459225⟩

/-- Message-schedule extension: prepend 48 derived words to the reversed
16-word block (most recent first). -/
def shaExtend : Nat → List Nat → List Nat
  | 0, acc => acc
  | n + 1, acc =>
    let w2 := acc.getD 1 0
    let w7 := acc.getD 6 0
    let w15 := acc.getD 14 0
    let w16 := acc.getD 15 0
    let s0 := rotr 7 w15 ^^^ rotr 18 w15 ^^^ (w15 >>> 3)
    let s1 := rotr 17 w2 ^^^ rotr 19 w2 ^^^ (w2 >>> 10)
    shaExtend n (w32 (s1 + w7 + s0 + w16) :: acc)

/-- SHA-256 compression rounds over the list of `K[i] + W[i]` words. -/
def shaRounds : List Nat → Hash8 → Hash8
  | [], st => st
  | kw :: rest, st =>
    let s1 := rotr 6 st.e ^^^ rotr 11 st.e ^^^ rotr 25 st.e
    let ch := (st.e &&& st.f) ^^^ (wNot st.e &&& st.g)
    let t1 := w32 (st.h + s1 + ch + kw)
    let s0 := rotr 2 st.a ^^^ rotr 13 st.a ^^^ rotr 22 st.a
    let maj := (st.a &&& st.b) ^^^ (st.a &&& st.c) ^^^ (st.b &&& st.c)
    let t2 := w32 (s0 + maj)
    shaRounds rest ⟨w32 (t1 + t2), st.a, st.b, st.c, w32 (st.d + t1), st.e, st.f, st.g⟩

/-- SHA-256 compression of one 16-word block. -/
def shaCompressBlock (st : Hash8) (block : List Nat) : Hash8 :=
  let ws := (shaExtend 48 block.reverse).reverse
  let kws := List.zipWith (fun k w => w32 (k + w)) sha256K ws
  let r := shaRounds kws st
  ⟨w32 (st.a + r.a), w32 (st.b + r.b), w32 (st.c + r.c), w32 (st.d + r.d),
   w32 (st.e + r.e), w32 (st.f + r.f), w32 (st.g + r.g), w32 (st.h + r.h)⟩

/-- Big-endian 4-byte words from a byte list (length a multiple of 4 after padding). -/
def bytesToWords : List Nat → List Nat
  | b1 :: b2 :: b3 :: b4 :: rest =>
    (b1 * 16777216 + b2 * 65536 + b3 * 256 + b4) :: bytesToWords rest
  | _ => []

/-- Big-endian bytes of a value, fixed width. -/
def natToBytesBE : Nat → Nat → List Nat
  | 0, _ => []
  | k + 1, v => natToBytesBE k (v / 256) ++ [v % 256]

/-- SHA-256 message padding: 0x80, zeros, 64-bit big-endian bit length. -/
def sha256Pad (msg : List Nat) : List Nat :=
  let z := (119 - msg.length % 64) % 64
  msg ++ 128 :: List.replicate z 0 ++ natToBytesBE 8 (msg.length * 8)

/-- Split a word list into 16-word blocks (padding makes the length an
exact multiple of 16, so the catch-all only sees the empty list). -/
def chunk16 : List Nat → List (List Nat)
  | w1 :: w2 :: w3 :: w4 :: w5 :: w6 :: w7 :: w8 ::
    w9 :: w10 :: w11 :: w12 :: w13 :: w14 :: w15 :: w16 :: rest =>
    [w1, w2, w3, w4, w5, w6, w7, w8, w9, w10, w11, w12, w13, w14, w15, w16] :: chunk16 rest
  | _ => []

/-- Bytes of the final hash value (big-endian per word). -/
def hash8Bytes (st : Hash8) : List Nat :=
  natToBytesBE 4 st.a ++ natToBytesBE 4 st.b ++ natToBytesBE 4 st.c ++ natToBytesBE 4 st.d ++
  natToBytesBE 4 st.e ++ natToBytesBE 4 st.f ++ natToBytesBE 4 st.g ++ natToBytesBE 4 st.h

/-- SHA-256 of a byte list. -/
def sha256 (msg : List Nat) : List Nat :=
  hash8Bytes ((chunk16 (bytesToWords (sha256Pad msg))).foldl shaCompressBlock sha256Init)

/-- HMAC-SHA256 (crypto-js `HmacSHA256(message, key)` over byte lists). -/
def hmacSha256 (msg key : List Nat) : List Nat :=
  let key1 := if 64 < key.length then sha256 key else key
  let key64 := key1 ++ List.replicate (64 - key1.length) 0
  let ipad := key64.map (fun b => b ^^^ 54)
  let opad := key64.map (fun b => b ^^^ 92)
  sha256 (opad ++ sha256 (ipad ++ msg))

/-- The double-quote character. -/
def quoteChar : Char := Char.ofNat 34

/-- The backslash character. -/
def backslashChar : Char := Char.ofNat 92

/-- The opening curly bracket character. -/
def lbraceChar : Char := Char.ofNat 123

/-- The closing curly bracket character. -/
def rbraceChar : Char := Char.ofNat 125

/-- Decimal digit character. -/
def digitChar (n : Nat) : Char := Char.ofNat (48 + n)

/-- Is the character a decimal digit? -/
def isDigitChar (c : Char) : Bool := 48 ≤ c.toNat && c.toNat ≤ 57

/-- Numeric value of a digit character. -/
def digitVal (c : Char) : Nat := c.toNat - 48

/-- Lowercase hexadecimal digit character. -/
def hexChar (n : Nat) : Char :=
  if n < 10 then Char.ofNat (48 + n) else Char.ofNat (87 + n)

/-- Decimal digits of a natural number, most significant first (fuel-driven). -/
def natDigitsAux : Nat → Nat → Str → Str
  | 0, _, acc => acc
  | fuel + 1, n, acc =>
    if n < 10 then digitChar n :: acc
    else natDigitsAux fuel (n / 10) (digitChar (n % 10) :: acc)

/-- Decimal digits of a natural number, most significant first. -/
def natDigits (n : Nat) : Str := natDigitsAux (n + 1) n []

/-- Decimal notation of an integer (JavaScript number-to-string on integers). -/
def printInt (n : Int) : Str :=
  if n < 0 then '-' :: natDigits n.natAbs else natDigits n.natAbs

/-- JSON.stringify's escaping of one string character. -/
def escapeChar (c : Char) : Str :=
  if c = quoteChar then [backslashChar, quoteChar]
  else if c = backslashChar then [backslashChar, backslashChar]
  else if c.toNat = 8 then [backslashChar, 'b']
  else if c.toNat = 9 then [backslashChar, 't']
  else if c.toNat = 10 then [backslashChar, 'n']
  else if c.toNat = 12 then [backslashChar, 'f']
  else if c.toNat = 13 then [backslashChar, 'r']
  else if c.toNat < 32 then
    [backslashChar, 'u', '0', '0', hexChar (c.toNat / 16), hexChar (c.toNat % 16)]
  else [c]

/-- JSON.stringify's escaping of a string body. -/
def escapeStr : Str → Str
  | [] => []
  | c :: rest => escapeChar c ++ escapeStr rest

/-- JSON string literal for a string value. -/
def printString (s : Str) : Str := quoteChar :: (escapeStr s ++ [quoteChar])

mutual

/-- Compact JSON text of a value, properties in stored order (the
JSON.stringify output shape: no insignificant whitespace). -/
def printJson : Json → Str
  | .null => "null".toList
  | .bool true => "true".toList
  | .bool false => "false".toList
  | .num n => printInt n
  | .str s => printString s
  | .arr xs => '[' :: (printArrItems xs ++ [']'])
  | .obj kvs => lbraceChar :: (printObjItems kvs ++ [rbraceChar])

/-- Comma-separated JSON texts of array elements. -/
def printArrItems : List Json → Str
  | [] => []
  | [x] => printJson x
  | x :: y :: rest => printJson x ++ ',' :: printArrItems (y :: rest)

/-- Comma-separated `key:value` JSON texts of object properties. -/
def printObjItems : List (Str × Json) → Str
  | [] => []
  | [(k, v)] => printString k ++ ':' :: printJson v
  | (k, v) :: q :: rest => printString k ++ ':' :: printJson v ++ ',' :: printObjItems (q :: rest)

end

/-- Model of `json-stable-stringify`: compact JSON with object keys
sorted lexicographically at every nesting level (equivalently, the plain
printer applied to the canonical form). -/
def stableStringify (v : Json) : Str := printJson (canon v)

/-- Is the character JSON whitespace (space, tab, line feed, carriage return)? -/
def isWsChar (c : Char) : Bool :=
  c.toNat = 32 || c.toNat = 9 || c.toNat = 10 || c.toNat = 13

/-- Drop leading JSON whitespace. -/
def skipWs : Str → Str
  | [] => []
  | c :: rest => if isWsChar c then skipWs rest else c :: rest

/-- Numeric value of a hexadecimal digit character, either case. -/
def parseHexDigit (c : Char) : Option Nat :=
  if 48 ≤ c.toNat && c.toNat ≤ 57 then some (c.toNat - 48)
  else if 97 ≤ c.toNat && c.toNat ≤ 102 then some (c.toNat - 87)
  else if 65 ≤ c.toNat && c.toNat ≤ 70 then some (c.toNat - 55)
  else none

/-- Parse a JSON string body after the opening quote, returning the
string value and the remainder after the closing quote.  Faithful to
JSON.parse except that `\u` escapes in the surrogate range are rejected
(the embedding's characters are unicode scalar values). -/
def parseStringBody : Str → Option (Str × Str)
  | [] => none
  | c :: rest =>
    if c = quoteChar then some ([], rest)
    else if c = backslashChar then
      match rest with
      | [] => none
      | e :: rest2 =>
        if e = quoteChar then (parseStringBody rest2).map (fun p => (quoteChar :: p.1, p.2))
        else if e = backslashChar then
          (parseStringBody rest2).map (fun p => (backslashChar :: p.1, p.2))
        else if e = '/' then (parseStringBody rest2).map (fun p => ('/' :: p.1, p.2))
        else if e = 'b' then (parseStringBody rest2).map (fun p => (Char.ofNat 8 :: p.1, p.2))
        else if e = 'f' then (parseStringBody rest2).map (fun p => (Char.ofNat 12 :: p.1, p.2))
        else if e = 'n' then (parseStringBody rest2).map (fun p => (Char.ofNat 10 :: p.1, p.2))
        else if e = 'r' then (parseStringBody rest2).map (fun p => (Char.ofNat 13 :: p.1, p.2))
        else if e = 't' then (parseStringBody rest2).map (fun p => (Char.ofNat 9 :: p.1, p.2))
        else if e = 'u' then
          match rest2 with
          | h1 :: h2 :: h3 :: h4 :: rest6 =>
            match parseHexDigit h1, parseHexDigit h2, parseHexDigit h3, parseHexDigit h4 with
            | some d1, some d2, some d3, some d4 =>
              let n := d1 * 4096 + d2 * 256 + d3 * 16 + d4
              if 55296 ≤ n && n < 57344 then none
              else (parseStringBody rest6).map (fun p => (Char.ofNat n :: p.1, p.2))
            | _, _, _, _ => none
          | _ => none
        else none
    else if c.toNat < 32 then none
    else (parseStringBody rest).map (fun p => (c :: p.1, p.2))

/-- Consume leading decimal digits, accumulating their value. -/
def readDigits (acc : Nat) : Str → Nat × Str
  | [] => (acc, [])
  | c :: rest =>
    if isDigitChar c then readDigits (acc * 10 + digitVal c) rest else (acc, c :: rest)

/-- Parse the natural-number part of a JSON number (no leading zeros). -/
def parseNatPart : Str → Option (Nat × Str)
  | [] => none
  | c :: rest =>
    if c = '0' then
      match rest with
      | d :: _ => if isDigitChar d then none else some (0, rest)
      | [] => some (0, [])
    else if isDigitChar c then some (readDigits 0 (c :: rest))
    else none

/-- Does the remainder not continue the number with a fraction or exponent?
The embedding restricts JSON numbers to integers, so such continuations
are treated as parse failures (floating-point is out of scope). -/
def numTailOk : Str → Bool
  | [] => true
  | c :: _ => !(c = '.' || c = 'e' || c = 'E')

/-- Parse a JSON number (restricted to integer literals). -/
def parseNumber : Str → Option (Int × Str)
  | [] => none
  | c :: rest =>
    if c = '-' then
      match parseNatPart rest with
      | some (n, r) => if numTailOk r then some (-(n : Int), r) else none
      | none => none
    else
      match parseNatPart (c :: rest) with
      | some (n, r) => if numTailOk r then some ((n : Int), r) else none
      | none => none

/-- JavaScript property assignment on a property list: an existing key
keeps its position and gets the new value, a new key is appended. -/
def objInsert : List (Str × Json) → Str → Json → List (Str × Json)
  | [], k, v => [(k, v)]
  | (k2, v2) :: rest, k, v =>
    if k2 = k then (k2, v) :: rest else (k2, v2) :: objInsert rest k v

mutual

/-- Fuel-driven JSON value parser (model of the recursive descent inside
JSON.parse); returns the value and the unconsumed remainder. -/
def parseVal : Nat → Str → Option (Json × Str)
  | 0, _ => none
  | fuel + 1, s =>
    match skipWs s with
    | [] => none
    | c :: rest =>
      if c = quoteChar then (parseStringBody rest).map (fun p => (Json.str p.1, p.2))
      else if c = lbraceChar then
        match skipWs rest with
        | [] => none
        | c2 :: rest2 =>
          if c2 = rbraceChar then some (Json.obj [], rest2)
          else parseObjItems fuel [] (c2 :: rest2)
      else if c = '[' then
        match skipWs rest with
        | [] => none
        | c2 :: rest2 =>
          if c2 = ']' then some (Json.arr [], rest2)
          else parseArrItems fuel [] (c2 :: rest2)
      else if c = 'n' then
        match rest with
        | 'u' :: 'l' :: 'l' :: r => some (Json.null, r)
        | _ => none
      else if c = 't' then
        match rest with
        | 'r' :: 'u' :: 'e' :: r => some (Json.bool true, r)
        | _ => none
      else if c = 'f' then
        match rest with
        | 'a' :: 'l' :: 's' :: 'e' :: r => some (Json.bool false, r)
        | _ => none
      else (parseNumber (c :: rest)).map (fun p => (Json.num p.1, p.2))

/-- Parse the properties of a JSON object after the opening bracket,
positioned at a key (whitespace already skipped). -/
def parseObjItems : Nat → List (Str × Json) → Str → Option (Json × Str)
  | 0, _, _ => none
  | fuel + 1, acc, s =>
    match s with
    | [] => none
    | c :: rest =>
      if c = quoteChar then
        match parseStringBody rest with
        | none => none
        | some (k, r1) =>
          match skipWs r1 with
          | [] => none
          | c2 :: r2 =>
            if c2 = ':' then
              match parseVal fuel r2 with
              | none => none
              | some (v, r3) =>
                match skipWs r3 with
                | [] => none
                | c3 :: r4 =>
                  if c3 = ',' then parseObjItems fuel (objInsert acc k v) (skipWs r4)
                  else if c3 = rbraceChar then some (Json.obj (objInsert acc k v), r4)
                  else none
            else none
      else none

/-- Parse the elements of a JSON array after the opening bracket,
positioned at an element. -/
def parseArrItems : Nat → List Json → Str → Option (Json × Str)
  | 0, _, _ => none
  | fuel + 1, acc, s =>
    match parseVal fuel s with
    | none => none
    | some (v, r1) =>
      match skipWs r1 with
      | [] => none
      | c :: r2 =>
        if c = ',' then parseArrItems fuel (acc ++ [v]) r2
        else if c = ']' then some (Json.arr (acc ++ [v]), r2)
        else none

end

/-- Model of JSON.parse: whole-string parse to a value, `none` for the
SyntaxError cases. -/
def jsonParse (s : Str) : Option Json :=
  match parseVal (s.length + 1) s with
  | some (v, r) => if skipWs r = [] then some v else none
  | none => none

/-- Days from the civil epoch 1970-01-01 for a proleptic Gregorian date
(Int division is floor division for positive divisors). -/
def daysFromCivil (y m d : Int) : Int :=
  let y2 := if m ≤ 2 then y - 1 else y
  let era := y2 / 400
  let yoe := y2 - era * 400
  let mp := (m + 9) % 12
  let doy := (153 * mp + 2) / 5 + d - 1
  let doe := yoe * 365 + yoe / 4 - yoe / 100 + doy
  era * 146097 + doe - 719468

/-- Is the (proleptic Gregorian) year a leap year? -/
def isLeapYear (y : Int) : Bool := y % 4 = 0 && (y % 100 ≠ 0 || y % 400 = 0)

/-- Number of days of a month. -/
def daysInMonth (y : Int) (m : Nat) : Nat :=
  if m = 2 then (if isLeapYear y then 29 else 28)
  else if m = 4 || m = 6 || m = 9 || m = 11 then 30
  else 31

/-- Read exactly `k` decimal digits. -/
def parseDigitsN : Nat → Str → Option (Nat × Str)
  | 0, s => some (0, s)
  | _ + 1, [] => none
  | k + 1, c :: rest =>
    if isDigitChar c then
      (parseDigitsN k rest).map (fun p => (digitVal c * 10 ^ k + p.1, p.2))
    else none

/-- Parse a timezone designator ending an ISO-8601 timestamp: `Z`,
`±HH:MM` or `±HHMM`; an empty remainder means a local time, which
resolves through the environment offset `tzMin` (minutes east of UTC). -/
def parseZoneMin (tzMin : Int) : Str → Option Int
  | [] => some tzMin
  | ['Z'] => some 0
  | c :: rest =>
    if c = '+' || c = '-' then
      let sign : Int := if c = '+' then 1 else -1
      match parseDigitsN 2 rest with
      | none => none
      | some (hh, r1) =>
        match (match r1 with | ':' :: r => parseDigitsN 2 r | r => parseDigitsN 2 r) with
        | some (mm, []) =>
          if hh ≤ 23 && mm ≤ 59 then some (sign * ((hh : Int) * 60 + (mm : Int))) else none
        | _ => none
    else none

/-- Model of the dayjs/Date interpretation of the ISO-8601 timestamps
used by the codec: `YYYY-MM-DDTHH:MM:SS`, optional `.mmm` milliseconds,
optional zone designator; the result is in milliseconds since the epoch
on the UTC timeline.  `none` models an Invalid Date. -/
def dayjsParse (tzMin : Int) (s : Str) : Option Int :=
  match parseDigitsN 4 s with
  | some (y, '-' :: r1) =>
    match parseDigitsN 2 r1 with
    | some (mo, '-' :: r2) =>
      match parseDigitsN 2 r2 with
      | some (d, 'T' :: r3) =>
        match parseDigitsN 2 r3 with
        | some (h, ':' :: r4) =>
          match parseDigitsN 2 r4 with
          | some (mi, ':' :: r5) =>
            match parseDigitsN 2 r5 with
            | some (sec, r6) =>
              let msRest : Option (Nat × Str) :=
                match r6 with
                | '.' :: r7 => parseDigitsN 3 r7
                | r7 => some (0, r7)
              match msRest with
              | none => none
              | some (ms, r8) =>
                match parseZoneMin tzMin r8 with
                | none => none
                | some offMin =>
                  if 1 ≤ mo && mo ≤ 12 && 1 ≤ d && d ≤ daysInMonth (y : Int) mo
                      && h ≤ 23 && mi ≤ 59 && sec ≤ 59 then
                    some (daysFromCivil (y : Int) (mo : Int) (d : Int) * 86400000
                      + (h : Int) * 3600000 + (mi : Int) * 60000 + (sec : Int) * 1000 + (ms : Int)
                      - offMin * 60000)
                  else none
            | _ => none
          | _ => none
        | _ => none
      | _ => none
    | _ => none
  | _ => none

/-- Property key `createdTime`. -/
def createdTimeKey : Str := "createdTime".toList

/-- Property key `expiredTime`. -/
def expiredTimeKey : Str := "expiredTime".toList

/-- Property key `data`. -/
def dataKey : Str := "data".toList

/-- Property key `userId`. -/
def userIdKey : Str := "userId".toList

/-- Property key `username`. -/
def usernameKey : Str := "username".toList

/-- Model of `isExpiredTokenPayload` (src/source/index.ts:123), namely
`dayJS(payload.expiredTime).isBefore(dayJS())`.  `dayJS(undefined)` is
the current instant; strings go through ISO parsing (an unparsable
string is an Invalid Date, and `isBefore` on an Invalid Date is false);
numbers are epoch milliseconds; booleans coerce through `new Date` to
1/0 ms; `null`, arrays and objects give an Invalid Date.  The single
environment instant `now` models the wall clock (both clock reads of the
source observe the same instant in the model). -/
def isExpiredTokenPayload (now tzMin : Int) (payload : Json) : Bool :=
  let expVal : Option Json :=
    match payload with
    | .obj kvs => jLookup kvs expiredTimeKey
    | _ => none
  let expMs : Option Int :=
    match expVal with
    | none => some now
    | some (.str s) => dayjsParse tzMin s
    | some (.num n) => some n
    | some (.bool b) => some (if b then 1 else 0)
    | some _ => none
  match expMs with
  | some t => decide (t < now)
  | none => false

/-- Model of the zod schema check `isValidSignPayload`
(src/source/index.ts:33, `SignPayloadSchema.safeParse(payload).success`):
an object whose `createdTime` property is a string, whose optional
`expiredTime` property is a string when present, and whose `data`
property is an object with string `userId` and `username`; unknown keys
are permitted everywhere (the top-level schema strips them and `data`
has a catchall). -/
def isValidSignPayload (payload : Json) : Bool :=
  match payload with
  | .obj kvs =>
    (match jLookup kvs createdTimeKey with
     | some (.str _) => true
     | _ => false) &&
    (match jLookup kvs expiredTimeKey with
     | none => true
     | some (.str _) => true
     | _ => false) &&
    (match jLookup kvs dataKey with
     | some (.obj d) =>
       (match jLookup d userIdKey with
        | some (.str _) => true
        | _ => false) &&
       (match jLookup d usernameKey with
        | some (.str _) => true
        | _ => false)
     | _ => false)
  | _ => false

/-- A signing secret: public key identifier and private key material. -/
structure SignSecret where
  secretKey : Str
  secretValue : Str

/-- Result of parsing a token without verification. -/
structure ParsedSignData where
  secretKey : Str
  payload : Json

/-- Error text of the exception thrown by `signToken` on an invalid payload. -/
def invalidPayloadMsg : Str := "invalid payload".toList

/-- Error text of the crypto-js exception escaping `parseToken` on
malformed UTF-8 (it is thrown outside the function's try/catch). -/
def malformedUtf8Msg : Str := "Malformed UTF-8 data".toList

/-- Model of `signToken` (src/source/index.ts:52): validate the payload,
stable-stringify it, base64url the UTF-8 bytes, HMAC-SHA256 the encoded
text with the secret value, and join the three segments with colons. -/
def signToken (secret : SignSecret) (payload : Json) : Except Str Str :=
  if isValidSignPayload payload then
    let dataString := stableStringify payload
    let base64DataString := b64uStringify (utf8Encode dataString)
    let signString :=
      b64uStringify (hmacSha256 (utf8Encode base64DataString) (utf8Encode secret.secretValue))
    Except.ok (secret.secretKey ++ ':' :: (signString ++ ':' :: base64DataString))
  else Except.error invalidPayloadMsg

/-- Model of `parseToken` (src/source/index.ts:100).  The base64url and
UTF-8 decoding happen before the try/catch, so a malformed UTF-8 byte
sequence escapes as an exception; only JSON.parse failures are caught
and turned into `null`. -/
def parseToken (token : Str) : Except Str (Option ParsedSignData) :=
  match splitColon token with
  | [secretKey, _signString, base64DataString] =>
    match utf8Decode (b64uParseBytes base64DataString) with
    | none => Except.error malformedUtf8Msg
    | some decodedDataString =>
      match jsonParse decodedDataString with
      | some payload => Except.ok (some ⟨secretKey, payload⟩)
      | none => Except.ok none
  | _ => Except.ok none

/-- Model of `verifyToken` (src/source/index.ts:78).  Note the returned
condition: the source compares the recreated signature to the token's
signature segment with `!==` (strict inequality). -/
def verifyToken (now tzMin : Int) (token : Str) (secret : SignSecret) : Except Str Bool :=
  match splitColon token with
  | [secretKey, signString, base64DataString] =>
    let recreatedSignString :=
      b64uStringify (hmacSha256 (utf8Encode base64DataString) (utf8Encode secret.secretValue))
    match parseToken token with
    | Except.error e => Except.error e
    | Except.ok none => Except.ok false
    | Except.ok (some tokenInfo) =>
      if isExpiredTokenPayload now tzMin tokenInfo.payload then Except.ok false
      else Except.ok (decide (recreatedSignString ≠ signString) && decide (secretKey = secret.secretKey))
  | _ => Except.ok false

/-- Round trip of `Char.ofNat` on a valid scalar value. -/
theorem charToNat_ofNat {m : Nat} (h : Nat.isValidChar m) : (Char.ofNat m).toNat = m := by
  unfold Char.ofNat
  rw [dif_pos h]
  unfold Char.ofNatAux Char.toNat
  simp [UInt32.toNat, BitVec.toNat_ofNatLt]

/-- Every character's scalar value avoids the surrogate range and the
values from 0x110000 up. -/
theorem char_valid_range (c : Char) :
    c.toNat < 55296 ∨ (57343 < c.toNat ∧ c.toNat < 1114112) := by
  have h := c.valid
  unfold UInt32.isValidChar Nat.isValidChar at h
  rcases h with h | ⟨h1, h2⟩
  · exact Or.inl h
  · exact Or.inr ⟨h1, h2⟩

/-- No character of the string is a colon. -/
def colonFree (s : Str) : Bool := s.all (fun c => decide (c ≠ ':'))

/-- JavaScript split never returns an empty list. -/
theorem splitColon_ne_nil (s : Str) : splitColon s ≠ [] := by
  cases s with
  | nil => simp [splitColon]
  | cons c rest =>
    unfold splitColon
    cases h : splitColon rest with
    | nil => simp
    | cons t ts =>
      dsimp only
      split <;> simp

/-- Splitting a colon-free string gives back the single segment. -/
theorem splitColon_colonFree (s : Str) (h : colonFree s = true) : splitColon s = [s] := by
  induction s with
  | nil => rfl
  | cons c rest ih =>
    simp only [colonFree, List.all_cons, Bool.and_eq_true, decide_eq_true_eq] at h
    unfold splitColon
    rw [ih h.2]
    simp [h.1]

/-- Splitting distributes over a colon-free prefix followed by a colon. -/
theorem splitColon_append (a rest : Str) (h : colonFree a = true) :
    splitColon (a ++ ':' :: rest) = a :: splitColon rest := by
  induction a with
  | nil =>
    simp only [List.nil_append]
    unfold splitColon
    cases hr : splitColon rest with
    | nil => exact absurd hr (splitColon_ne_nil rest)
    | cons t ts => simp [← hr, ← splitColon.eq_def]
  | cons c a ih =>
    simp only [colonFree, List.all_cons, Bool.and_eq_true, decide_eq_true_eq] at h
    have ih2 := ih h.2
    simp only [List.cons_append]
    unfold splitColon
    rw [ih2]
    simp [h.1, ← splitColon.eq_def]

/-- Length of the base64url alphabet. -/
theorem b64Alphabet_length : b64Alphabet.length = 64 := by decide

/-- No base64url character is a colon. -/
theorem b64Char_ne_colon (n : Nat) : b64Char n ≠ ':' := by
  by_cases h : n < 64
  · have hall : ∀ m, m < 64 → b64Alphabet.getD m 'A' ≠ ':' := by decide
    exact hall n h
  · unfold b64Char
    rw [List.getD_eq_default]
    · decide
    · rw [b64Alphabet_length]; omega

/-- Base64url output never contains a colon. -/
theorem colonFree_b64uStringify : ∀ bs : List Nat, colonFree (b64uStringify bs) = true
  | [] => rfl
  | [b1] => by
    simp [b64uStringify, colonFree, b64Char_ne_colon]
  | [b1, b2] => by
    simp [b64uStringify, colonFree, b64Char_ne_colon]
  | b1 :: b2 :: b3 :: rest => by
    have ih := colonFree_b64uStringify rest
    simp only [colonFree, b64uStringify, List.all_cons, Bool.and_eq_true, decide_eq_true_eq]
    exact ⟨b64Char_ne_colon _, b64Char_ne_colon _, b64Char_ne_colon _, b64Char_ne_colon _, ih⟩

/-- The alphabet index inverts the alphabet character map below 64. -/
theorem b64Idx_b64Char : ∀ n, n < 64 → b64Idx (b64Char n) = n := by decide

/-- Base64url decoding inverts encoding on byte lists. -/
theorem b64u_roundtrip : ∀ bs : List Nat, (∀ b ∈ bs, b < 256) →
    b64uParseBytes (b64uStringify bs) = bs
  | [], _ => rfl
  | [b1], h => by
    have hb1 : b1 < 256 := h b1 (by simp)
    simp only [b64uStringify, b64uParseBytes]
    rw [b64Idx_b64Char _ (by omega), b64Idx_b64Char _ (by omega)]
    simp only [List.cons.injEq, and_true]
    omega
  | [b1, b2], h => by
    have hb1 : b1 < 256 := h b1 (by simp)
    have hb2 : b2 < 256 := h b2 (by simp)
    simp only [b64uStringify, b64uParseBytes]
    rw [b64Idx_b64Char _ (by omega), b64Idx_b64Char _ (by omega), b64Idx_b64Char _ (by omega)]
    simp only [List.cons.injEq, and_true]
    omega
  | b1 :: b2 :: b3 :: rest, h => by
    have hb1 : b1 < 256 := h b1 (by simp)
    have hb2 : b2 < 256 := h b2 (by simp)
    have hb3 : b3 < 256 := h b3 (by simp)
    have ih := b64u_roundtrip rest (fun b hb => h b (by simp [hb]))
    simp only [b64uStringify, b64uParseBytes]
    rw [b64Idx_b64Char _ (by omega), b64Idx_b64Char _ (by omega),
      b64Idx_b64Char _ (by omega), b64Idx_b64Char _ (by omega), ih]
    simp only [List.cons.injEq, and_true]
    refine ⟨by omega, by omega, by omega⟩

/-- UTF-8 bytes of one character are below 256. -/
theorem utf8EncodeChar_lt (c : Char) : ∀ b ∈ utf8EncodeChar c, b < 256 := by
  have hc : c.toNat < 1114112 := by rcases char_valid_range c with h | h <;> omega
  intro b hb
  unfold utf8EncodeChar at hb
  split at hb
  · simp at hb; omega
  · split at hb
    · simp at hb; omega
    · split at hb
      · simp at hb; omega
      · simp at hb; omega

/-- UTF-8 encoded bytes of a string are below 256. -/
theorem utf8Encode_lt : ∀ s : Str, ∀ b ∈ utf8Encode s, b < 256
  | [], b, hb => by simp [utf8Encode] at hb
  | c :: rest, b, hb => by
    simp only [utf8Encode, List.mem_append] at hb
    rcases hb with hb | hb
    · exact utf8EncodeChar_lt c b hb
    · exact utf8Encode_lt rest b hb

/-- Step shape of the UTF-8 decoding loop at an ASCII byte. -/
theorem utf8DecodeGo_one (fuel b : Nat) (bs : List Nat) (h : b < 128) :
    utf8DecodeGo (fuel + 1) (b :: bs) =
      (utf8DecodeGo fuel bs).map (fun s => Char.ofNat b :: s) := by
  rw [utf8DecodeGo]
  rw [if_pos h]

/-- Step shape of the UTF-8 decoding loop at a two-byte sequence. -/
theorem utf8DecodeGo_two (fuel b b2 : Nat) (bs : List Nat) (h1 : 194 ≤ b) (h2 : b < 224)
    (h3 : isContByte b2 = true) :
    utf8DecodeGo (fuel + 1) (b :: b2 :: bs) =
      (utf8DecodeGo fuel bs).map (fun s => Char.ofNat ((b - 192) * 64 + (b2 - 128)) :: s) := by
  rw [utf8DecodeGo]
  rw [if_neg (by omega), if_neg (by omega), if_pos h2]
  unfold utf8Cont1
  dsimp only
  rw [if_pos h3]

/-- Step shape of the UTF-8 decoding loop at a three-byte sequence. -/
theorem utf8DecodeGo_three (fuel b b2 b3 : Nat) (bs : List Nat) (h1 : 224 ≤ b) (h2 : b < 240)
    (h3 : isContByte b2 = true) (h4 : isContByte b3 = true)
    (h5 : (2048 ≤ (b - 224) * 4096 + (b2 - 128) * 64 + (b3 - 128) &&
      !(55296 ≤ (b - 224) * 4096 + (b2 - 128) * 64 + (b3 - 128) &&
        (b - 224) * 4096 + (b2 - 128) * 64 + (b3 - 128) < 57344)) = true) :
    utf8DecodeGo (fuel + 1) (b :: b2 :: b3 :: bs) =
      (utf8DecodeGo fuel bs).map
        (fun s => Char.ofNat ((b - 224) * 4096 + (b2 - 128) * 64 + (b3 - 128)) :: s) := by
  rw [utf8DecodeGo]
  rw [if_neg (by omega), if_neg (by omega), if_neg (by omega), if_pos h2]
  simp only [utf8Cont2]
  rw [h3, h4]
  simp only [Bool.and_true, if_true]
  rw [if_pos h5]

/-- Step shape of the UTF-8 decoding loop at a four-byte sequence. -/
theorem utf8DecodeGo_four (fuel b b2 b3 b4 : Nat) (bs : List Nat) (h1 : 240 ≤ b) (h2 : b < 245)
    (h3 : isContByte b2 = true) (h4 : isContByte b3 = true) (h5 : isContByte b4 = true)
    (h6 : (65536 ≤ (b - 240) * 262144 + (b2 - 128) * 4096 + (b3 - 128) * 64 + (b4 - 128) &&
      (b - 240) * 262144 + (b2 - 128) * 4096 + (b3 - 128) * 64 + (b4 - 128) < 1114112) = true) :
    utf8DecodeGo (fuel + 1) (b :: b2 :: b3 :: b4 :: bs) =
      (utf8DecodeGo fuel bs).map (fun s =>
        Char.ofNat ((b - 240) * 262144 + (b2 - 128) * 4096 + (b3 - 128) * 64 + (b4 - 128)) :: s) := by
  rw [utf8DecodeGo]
  rw [if_neg (by omega), if_neg (by omega), if_neg (by omega), if_neg (by omega), if_pos h2]
  simp only [utf8Cont3]
  rw [h3, h4, h5]
  simp only [Bool.and_true, if_true]
  rw [if_pos h6]

/-- The UTF-8 decoding loop inverts encoding given enough fuel. -/
theorem utf8_roundtrip_go (s : Str) : ∀ fuel : Nat, (utf8Encode s).length ≤ fuel →
    utf8DecodeGo fuel (utf8Encode s) = some s := by
  induction s with
  | nil =>
    intro fuel _
    cases fuel <;> rfl
  | cons c rest ih =>
    intro fuel hf
    have hcv := char_valid_range c
    simp only [utf8Encode, List.length_append] at hf ⊢
    by_cases h1 : c.toNat < 128
    · have e1 : utf8EncodeChar c = [c.toNat] := by
        unfold utf8EncodeChar; rw [if_pos h1]
      rw [e1] at hf ⊢
      simp only [List.singleton_append, List.length_singleton] at hf ⊢
      cases fuel with
      | zero => omega
      | succ f =>
        rw [utf8DecodeGo_one _ _ _ h1, ih f (by omega)]
        simp [Char.ofNat_toNat]
    · by_cases h2 : c.toNat < 2048
      · have e1 : utf8EncodeChar c = [192 + c.toNat / 64, 128 + c.toNat % 64] := by
          unfold utf8EncodeChar; rw [if_neg h1, if_pos h2]
        rw [e1] at hf ⊢
        simp only [List.cons_append, List.nil_append, List.length_cons] at hf ⊢
        cases fuel with
        | zero => omega
        | succ f =>
          rw [utf8DecodeGo_two _ _ _ _ (by omega) (by omega)
            (by unfold isContByte; simp; omega), ih f (by omega)]
          simp only [Option.map_some', Option.some.injEq, List.cons.injEq, and_true]
          have harith : (192 + c.toNat / 64 - 192) * 64 + (128 + c.toNat % 64 - 128)
              = c.toNat := by omega
          rw [harith, Char.ofNat_toNat]
      · by_cases h3 : c.toNat < 65536
        · have e1 : utf8EncodeChar c =
              [224 + c.toNat / 4096, 128 + c.toNat / 64 % 64, 128 + c.toNat % 64] := by
            unfold utf8EncodeChar; rw [if_neg h1, if_neg h2, if_pos h3]
          rw [e1] at hf ⊢
          simp only [List.cons_append, List.nil_append, List.length_cons] at hf ⊢
          cases fuel with
          | zero => omega
          | succ f =>
            rw [utf8DecodeGo_three _ _ _ _ _ (by omega) (by omega)
              (by unfold isContByte; simp; omega) (by unfold isContByte; simp; omega)
              (by simp; omega), ih f (by omega)]
            simp only [Option.map_some', Option.some.injEq, List.cons.injEq, and_true]
            have harith : (224 + c.toNat / 4096 - 224) * 4096 +
                (128 + c.toNat / 64 % 64 - 128) * 64 + (128 + c.toNat % 64 - 128)
                = c.toNat := by omega
            rw [harith, Char.ofNat_toNat]
        · have e1 : utf8EncodeChar c = [240 + c.toNat / 262144, 128 + c.toNat / 4096 % 64,
              128 + c.toNat / 64 % 64, 128 + c.toNat % 64] := by
            unfold utf8EncodeChar; rw [if_neg h1, if_neg h2, if_neg h3]
          have hup : c.toNat < 1114112 := by omega
          rw [e1] at hf ⊢
          simp only [List.cons_append, List.nil_append, List.length_cons] at hf ⊢
          cases fuel with
          | zero => omega
          | succ f =>
            rw [utf8DecodeGo_four _ _ _ _ _ _ (by omega) (by omega)
              (by unfold isContByte; simp; omega) (by unfold isContByte; simp; omega)
              (by unfold isContByte; simp; omega) (by simp; omega), ih f (by omega)]
            simp only [Option.map_some', Option.some.injEq, List.cons.injEq, and_true]
            have harith : (240 + c.toNat / 262144 - 240) * 262144 +
                (128 + c.toNat / 4096 % 64 - 128) * 4096 +
                (128 + c.toNat / 64 % 64 - 128) * 64 + (128 + c.toNat % 64 - 128)
                = c.toNat := by omega
            rw [harith, Char.ofNat_toNat]

/-- UTF-8 decoding inverts encoding. -/
theorem utf8_roundtrip (s : Str) : utf8Decode (utf8Encode s) = some s :=
  utf8_roundtrip_go s (utf8Encode s).length le_rfl

/-- Digit characters evaluate back to their value and are digits. -/
theorem digitVal_digitChar (n : Nat) (h : n < 10) :
    digitVal (digitChar n) = n ∧ isDigitChar (digitChar n) = true := by
  unfold digitVal digitChar isDigitChar
  rw [charToNat_ofNat (Or.inl (by omega))]
  refine ⟨by omega, by simp; omega⟩

/-- The digit accumulator of `natDigitsAux` appends. -/
theorem natDigitsAux_append (fuel : Nat) : ∀ (n : Nat) (acc : Str),
    natDigitsAux fuel n acc = natDigitsAux fuel n [] ++ acc := by
  induction fuel with
  | zero => intro n acc; rfl
  | succ f ih =>
    intro n acc
    unfold natDigitsAux
    split
    · rfl
    · rw [ih (n / 10) (digitChar (n % 10) :: acc), ih (n / 10) [digitChar (n % 10)]]
      simp

/-- The digits of a number do not depend on the fuel, once sufficient. -/
theorem natDigitsAux_fuel (n : Nat) : ∀ f1 f2 : Nat, n < f1 → n < f2 →
    natDigitsAux f1 n [] = natDigitsAux f2 n [] := by
  induction n using Nat.strong_induction_on with
  | _ n ih =>
    intro f1 f2 h1 h2
    cases f1 with
    | zero => omega
    | succ a =>
      cases f2 with
      | zero => omega
      | succ b =>
        unfold natDigitsAux
        split
        · rfl
        · rw [natDigitsAux_append a, natDigitsAux_append b,
            ih (n / 10) (by omega) a b (by omega) (by omega)]

/-- Splitting off the last digit of a number with at least two digits. -/
theorem natDigits_split (n : Nat) (h : 10 ≤ n) :
    natDigits n = natDigits (n / 10) ++ [digitChar (n % 10)] := by
  unfold natDigits
  rw [natDigitsAux]
  rw [if_neg (by omega), natDigitsAux_append]
  congr 1
  exact natDigitsAux_fuel (n / 10) n (n / 10 + 1) (by omega) (by omega)

/-- Reading digits consumes exactly the printed digits of a number. -/
theorem readDigits_natDigits (n : Nat) : ∀ (a : Nat) (rest : Str),
    readDigits a (natDigits n ++ rest) =
      readDigits (a * 10 ^ (natDigits n).length + n) rest := by
  induction n using Nat.strong_induction_on with
  | _ n ih =>
    intro a rest
    by_cases h : n < 10
    · have e : natDigits n = [digitChar n] := by
        unfold natDigits
        rw [natDigitsAux, if_pos h]
      rw [e]
      simp only [List.singleton_append, List.length_singleton]
      rw [readDigits, if_pos (digitVal_digitChar n h).2, (digitVal_digitChar n h).1]
      norm_num
    · rw [natDigits_split n (by omega), List.append_assoc]
      simp only [List.singleton_append, List.length_append, List.length_singleton]
      rw [ih (n / 10) (by omega) a (digitChar (n % 10) :: rest)]
      rw [readDigits, if_pos (digitVal_digitChar (n % 10) (by omega)).2,
        (digitVal_digitChar (n % 10) (by omega)).1]
      congr 1
      have hp : 10 ^ ((natDigits (n / 10)).length + 1) = 10 ^ (natDigits (n / 10)).length * 10 := by
        rw [pow_succ]
      rw [hp]
      generalize 10 ^ (natDigits (n / 10)).length = P
      ring_nf
      omega

/-- Does the string not start with a digit? -/
def noDigitHead : Str → Bool
  | [] => true
  | c :: _ => !(isDigitChar c)

/-- Reading digits stops at a non-digit head. -/
theorem readDigits_stop (a : Nat) (rest : Str) (h : noDigitHead rest = true) :
    readDigits a rest = (a, rest) := by
  cases rest with
  | nil => rfl
  | cons c t =>
    unfold noDigitHead at h
    rw [readDigits, if_neg (by simp at h; simp [h])]

/-- The digits of zero. -/
theorem natDigits_zero : natDigits 0 = ['0'] := by decide

/-- The digits of a positive number start with a digit other than zero. -/
theorem natDigits_head_pos (n : Nat) (h : 1 ≤ n) :
    ∃ c t, natDigits n = c :: t ∧ isDigitChar c = true ∧ c ≠ '0' := by
  induction n using Nat.strong_induction_on with
  | _ n ih =>
    by_cases h10 : n < 10
    · refine ⟨digitChar n, [], ?_, (digitVal_digitChar n h10).2, ?_⟩
      · unfold natDigits
        rw [natDigitsAux, if_pos h10]
      · intro he
        have h0 : (digitChar n).toNat = 48 + n := by
          unfold digitChar
          exact charToNat_ofNat (Or.inl (by omega))
        rw [he] at h0
        have h1 : ('0').toNat = 48 := by decide
        omega
    · obtain ⟨c, t, he, hd, hz⟩ := ih (n / 10) (by omega) (by omega)
      refine ⟨c, t ++ [digitChar (n % 10)], ?_, hd, hz⟩
      rw [natDigits_split n (by omega), he]
      simp

/-- Parsing the natural part inverts printing the digits. -/
theorem parseNatPart_natDigits (n : Nat) (rest : Str) (hrest : noDigitHead rest = true) :
    parseNatPart (natDigits n ++ rest) = some (n, rest) := by
  by_cases h : n = 0
  · subst h
    rw [natDigits_zero]
    simp only [List.singleton_append]
    rw [parseNatPart.eq_def]
    dsimp only
    rw [if_pos rfl]
    cases rest with
    | nil => rfl
    | cons d t =>
      have hd : isDigitChar d = false := by
        unfold noDigitHead at hrest
        simpa using hrest
      dsimp only
      rw [if_neg (by simp [hd])]
  · obtain ⟨c, t, he, hd, hz⟩ := natDigits_head_pos n (by omega)
    rw [he]
    simp only [List.cons_append]
    rw [parseNatPart.eq_def]
    dsimp only
    rw [if_neg hz, if_pos hd, ← List.cons_append, ← he,
      readDigits_natDigits, readDigits_stop _ _ hrest]
    simp

/-- Parsing a JSON number inverts printing an integer. -/
theorem parseNumber_printInt (n : Int) (rest : Str) (hrest : noDigitHead rest = true)
    (htail : numTailOk rest = true) :
    parseNumber (printInt n ++ rest) = some (n, rest) := by
  unfold printInt
  split
  · simp only [List.cons_append]
    rw [parseNumber.eq_def]
    dsimp only
    rw [if_pos rfl, parseNatPart_natDigits n.natAbs rest hrest]
    dsimp only
    rw [if_pos htail]
    simp only [Option.some.injEq, Prod.mk.injEq, and_true]
    omega
  · obtain ⟨c, t, he, hd, _⟩ : ∃ c t, natDigits n.natAbs = c :: t ∧ isDigitChar c = true ∧
        (n.natAbs = 0 ∨ c ≠ '0') := by
      by_cases h0 : n.natAbs = 0
      · rw [h0, natDigits_zero]
        exact ⟨'0', [], rfl, by decide, Or.inl rfl⟩
      · obtain ⟨c, t, he, hd, hz⟩ := natDigits_head_pos n.natAbs (by omega)
        exact ⟨c, t, he, hd, Or.inr hz⟩
    rw [he]
    simp only [List.cons_append]
    rw [parseNumber.eq_def]
    have hcm : ¬(c = '-') := by
      intro hcc
      rw [hcc] at hd
      revert hd
      decide
    dsimp only
    rw [if_neg hcm, ← List.cons_append, ← he, parseNatPart_natDigits n.natAbs rest hrest]
    dsimp only
    rw [if_pos htail]
    simp only [Option.some.injEq, Prod.mk.injEq, and_true]
    omega

/-- Hex digit characters of values below 16 parse back to their value. -/
theorem parseHexDigit_hexChar : ∀ m, m < 16 → parseHexDigit (hexChar m) = some m := by decide

/-- Parsing a string body inverts escaping, up to the closing quote. -/
theorem parseStringBody_escape (s : Str) : ∀ rest : Str,
    parseStringBody (escapeStr s ++ (quoteChar :: rest)) = some (s, rest) := by
  induction s with
  | nil =>
    intro rest
    simp only [escapeStr, List.nil_append]
    rw [parseStringBody.eq_def]
    try dsimp only
    rw [if_pos rfl]
  | cons c cs ih =>
    intro rest
    simp only [escapeStr, List.append_assoc]
    unfold escapeChar
    by_cases h1 : c = quoteChar
    · rw [if_pos h1]
      simp only [List.cons_append, List.nil_append]
      rw [parseStringBody.eq_def]
      try dsimp only
      rw [if_neg (by decide), if_pos rfl]
      try dsimp only
      rw [if_pos rfl, ih rest]
      simp [h1]
    · rw [if_neg h1]
      by_cases h2 : c = backslashChar
      · rw [if_pos h2]
        simp only [List.cons_append, List.nil_append]
        rw [parseStringBody.eq_def]
        try dsimp only
        rw [if_neg (by decide), if_pos rfl]
        try dsimp only
        rw [if_neg (by decide), if_pos rfl, ih rest]
        simp [h2]
      · rw [if_neg h2]
        by_cases h3 : c.toNat = 8
        · rw [if_pos h3]
          simp only [List.cons_append, List.nil_append]
          rw [parseStringBody.eq_def]
          try dsimp only
          rw [if_neg (by decide), if_pos rfl]
          try dsimp only
          rw [if_neg (by decide), if_neg (by decide), if_neg (by decide),
            if_pos rfl, ih rest]
          have : Char.ofNat 8 = c := by rw [← h3, Char.ofNat_toNat]
          simpa using this
        · rw [if_neg h3]
          by_cases h4 : c.toNat = 9
          · rw [if_pos h4]
            simp only [List.cons_append, List.nil_append]
            rw [parseStringBody.eq_def]
            try dsimp only
            rw [if_neg (by decide), if_pos rfl]
            try dsimp only
            rw [if_neg (by decide), if_neg (by decide), if_neg (by decide),
              if_neg (by decide), if_neg (by decide), if_neg (by decide),
              if_neg (by decide), if_pos rfl, ih rest]
            have : Char.ofNat 9 = c := by rw [← h4, Char.ofNat_toNat]
            simpa using this
          · rw [if_neg h4]
            by_cases h5 : c.toNat = 10
            · rw [if_pos h5]
              simp only [List.cons_append, List.nil_append]
              rw [parseStringBody.eq_def]
              try dsimp only
              rw [if_neg (by decide), if_pos rfl]
              try dsimp only
              rw [if_neg (by decide), if_neg (by decide), if_neg (by decide),
                if_neg (by decide), if_neg (by decide), if_pos rfl, ih rest]
              have : Char.ofNat 10 = c := by rw [← h5, Char.ofNat_toNat]
              simpa using this
            · rw [if_neg h5]
              by_cases h6 : c.toNat = 12
              · rw [if_pos h6]
                simp only [List.cons_append, List.nil_append]
                rw [parseStringBody.eq_def]
                try dsimp only
                rw [if_neg (by decide), if_pos rfl]
                try dsimp only
                rw [if_neg (by decide), if_neg (by decide), if_neg (by decide),
                  if_neg (by decide), if_pos rfl, ih rest]
                have : Char.ofNat 12 = c := by rw [← h6, Char.ofNat_toNat]
                simpa using this
              · rw [if_neg h6]
                by_cases h7 : c.toNat = 13
                · rw [if_pos h7]
                  simp only [List.cons_append, List.nil_append]
                  rw [parseStringBody.eq_def]
                  try dsimp only
                  rw [if_neg (by decide), if_pos rfl]
                  try dsimp only
                  rw [if_neg (by decide), if_neg (by decide), if_neg (by decide),
                    if_neg (by decide), if_neg (by decide), if_neg (by decide),
                    if_pos rfl, ih rest]
                  have : Char.ofNat 13 = c := by rw [← h7, Char.ofNat_toNat]
                  simpa using this
                · rw [if_neg h7]
                  by_cases h8 : c.toNat < 32
                  · rw [if_pos h8]
                    simp only [List.cons_append, List.nil_append]
                    rw [parseStringBody.eq_def]
                    try dsimp only
                    rw [if_neg (by decide), if_pos rfl]
                    try dsimp only
                    rw [if_neg (by decide), if_neg (by decide), if_neg (by decide),
                      if_neg (by decide), if_neg (by decide), if_neg (by decide),
                      if_neg (by decide), if_neg (by decide), if_pos rfl]
                    rw [show parseHexDigit '0' = some 0 from by decide]
                    rw [parseHexDigit_hexChar (c.toNat / 16) (by omega)]
                    rw [parseHexDigit_hexChar (c.toNat % 16) (by omega)]
                    try dsimp only
                    rw [if_neg (by simp; omega), ih rest]
                    have harith : 0 * 4096 + 0 * 256 + c.toNat / 16 * 16 + c.toNat % 16
                        = c.toNat := by omega
                    rw [harith]
                    simp [Char.ofNat_toNat]
                  · rw [if_neg h8]
                    simp only [List.cons_append, List.nil_append]
                    rw [parseStringBody.eq_def]
                    try dsimp only
                    rw [if_neg h1, if_neg h2, if_neg (by omega), ih rest]
                    simp

mutual

/-- Fuel measure of a value for the JSON parser. -/
def jsize : Json → Nat
  | .null => 1
  | .bool _ => 1
  | .num _ => 1
  | .str _ => 1
  | .arr xs => 1 + jsizeList xs
  | .obj kvs => 1 + jsizeKvs kvs

/-- Fuel measure of a list of array elements. -/
def jsizeList : List Json → Nat
  | [] => 0
  | x :: xs => 1 + jsize x + jsizeList xs

/-- Fuel measure of a property list. -/
def jsizeKvs : List (Str × Json) → Nat
  | [] => 0
  | (_, v) :: rest => 1 + jsize v + jsizeKvs rest

end

/-- Values have positive size. -/
theorem jsize_pos (w : Json) : 1 ≤ jsize w := by
  cases w <;> simp [jsize]

/-- Skipping whitespace stops at a non-whitespace head. -/
theorem skipWs_cons (c : Char) (s : Str) (h : isWsChar c = false) : skipWs (c :: s) = c :: s := by
  rw [skipWs, if_neg (by simp [h])]

/-- Key membership distributes over append. -/
theorem keyMem_append (k : Str) (l1 l2 : List (Str × Json)) :
    keyMem k (l1 ++ l2) = (keyMem k l1 || keyMem k l2) := by
  induction l1 with
  | nil => simp [keyMem]
  | cons p t ih =>
    cases p
    simp [keyMem, ih, Bool.or_assoc]

/-- In a duplicate-free property list, a key bound later is not bound in
the prefix. -/
theorem nodupKeys_mid (k : Str) (v : Json) : ∀ acc kvs : List (Str × Json),
    nodupKeys (acc ++ (k, v) :: kvs) = true → keyMem k acc = false := by
  intro acc
  induction acc with
  | nil => intro kvs _; rfl
  | cons p t ih =>
    intro kvs h
    obtain ⟨k2, v2⟩ := p
    simp only [List.cons_append, nodupKeys, Bool.and_eq_true] at h
    obtain ⟨h1, h2⟩ := h
    have hk2 : keyMem k2 (t ++ (k, v) :: kvs) = false := by
      simpa using h1
    rw [keyMem_append] at hk2
    simp only [keyMem, Bool.or_eq_false_iff, decide_eq_false_iff_not] at hk2
    simp only [keyMem, Bool.or_eq_false_iff, decide_eq_false_iff_not]
    exact ⟨fun he => hk2.2.1 he.symm, ih kvs h2⟩

/-- Assigning an unbound key appends the property. -/
theorem objInsert_notmem (k : Str) (v : Json) : ∀ acc : List (Str × Json),
    keyMem k acc = false → objInsert acc k v = acc ++ [(k, v)] := by
  intro acc
  induction acc with
  | nil => intro _; rfl
  | cons p t ih =>
    intro h
    obtain ⟨k2, v2⟩ := p
    simp only [keyMem, Bool.or_eq_false_iff, decide_eq_false_iff_not] at h
    rw [objInsert, if_neg h.1, ih h.2]
    simp

/-- Shape of a printed integer: a minus sign or a digit first. -/
theorem printInt_head (n : Int) :
    ∃ c t, printInt n = c :: t ∧ (c = '-' ∨ isDigitChar c = true) := by
  unfold printInt
  split
  · exact ⟨'-', natDigits n.natAbs, rfl, Or.inl rfl⟩
  · by_cases h0 : n.natAbs = 0
    · rw [h0, natDigits_zero]
      exact ⟨'0', [], rfl, Or.inr (by decide)⟩
    · obtain ⟨c, t, he, hd, _⟩ := natDigits_head_pos _ (Nat.pos_of_ne_zero h0)
      exact ⟨c, t, he, Or.inr hd⟩

/-- A number head character is not whitespace and differs from every
other leading character the JSON value grammar dispatches on. -/
theorem numHead_facts (c : Char) (h : c = '-' ∨ isDigitChar c = true) :
    isWsChar c = false ∧ ¬(c = quoteChar) ∧ ¬(c = lbraceChar) ∧ ¬(c = '[') ∧
      ¬(c = 'n') ∧ ¬(c = 't') ∧ ¬(c = 'f') := by
  have hq : quoteChar.toNat = 34 := by decide
  have hb : lbraceChar.toNat = 123 := by decide
  rcases h with rfl | hd
  · exact ⟨by decide, by decide, by decide, by decide, by decide, by decide, by decide⟩
  · unfold isDigitChar at hd
    simp only [Bool.and_eq_true, decide_eq_true_eq] at hd
    have hw : isWsChar c = false := by
      unfold isWsChar
      simp only [Bool.or_eq_false_iff, decide_eq_false_iff_not]
      omega
    refine ⟨hw, ?_, ?_, ?_, ?_, ?_, ?_⟩ <;> intro he <;> rw [he] at hd
    · omega
    · omega
    · have : ('[').toNat = 91 := by decide
      omega
    · have : ('n').toNat = 110 := by decide
      omega
    · have : ('t').toNat = 116 := by decide
      omega
    · have : ('f').toNat = 102 := by decide
      omega

/-- Parsing the literal `null`. -/
theorem parseVal_null (f : Nat) (r : Str) :
    parseVal (f + 1) ('n' :: 'u' :: 'l' :: 'l' :: r) = some (Json.null, r) := by
  rw [parseVal, skipWs_cons _ _ (by decide)]
  dsimp only
  rw [if_neg (by decide), if_neg (by decide), if_neg (by decide), if_pos rfl]
  rfl

/-- Parsing the literal `true`. -/
theorem parseVal_true (f : Nat) (r : Str) :
    parseVal (f + 1) ('t' :: 'r' :: 'u' :: 'e' :: r) = some (Json.bool true, r) := by
  rw [parseVal, skipWs_cons _ _ (by decide)]
  dsimp only
  rw [if_neg (by decide), if_neg (by decide), if_neg (by decide), if_neg (by decide),
    if_pos rfl]
  rfl

/-- Parsing the literal `false`. -/
theorem parseVal_false (f : Nat) (r : Str) :
    parseVal (f + 1) ('f' :: 'a' :: 'l' :: 's' :: 'e' :: r) = some (Json.bool false, r) := by
  rw [parseVal, skipWs_cons _ _ (by decide)]
  dsimp only
  rw [if_neg (by decide), if_neg (by decide), if_neg (by decide), if_neg (by decide),
    if_neg (by decide), if_pos rfl]
  rfl

/-- Parsing a printed string literal. -/
theorem parseVal_str (f : Nat) (s r : Str) :
    parseVal (f + 1) (printString s ++ r) = some (Json.str s, r) := by
  unfold printString
  simp only [List.cons_append, List.append_assoc, List.singleton_append]
  rw [parseVal, skipWs_cons _ _ (by decide)]
  dsimp only
  rw [if_pos rfl]
  simp only [List.nil_append]
  rw [parseStringBody_escape s r]
  rfl

/-- Parsing a printed integer literal. -/
theorem parseVal_num (f : Nat) (n : Int) (r : Str) (hnd : noDigitHead r = true)
    (hnt : numTailOk r = true) :
    parseVal (f + 1) (printInt n ++ r) = some (Json.num n, r) := by
  obtain ⟨c, t, he, hc⟩ := printInt_head n
  obtain ⟨hw, f1, f2, f3, f4, f5, f6⟩ := numHead_facts c hc
  rw [he]
  simp only [List.cons_append]
  rw [parseVal, skipWs_cons _ _ hw]
  dsimp only
  rw [if_neg f1, if_neg f2, if_neg f3, if_neg f4, if_neg f5, if_neg f6]
  rw [← List.cons_append, ← he, parseNumber_printInt n r hnd hnt]
  rfl

/-- Parsing an empty printed array. -/
theorem parseVal_arr_nil (f : Nat) (r : Str) :
    parseVal (f + 1) ('[' :: ']' :: r) = some (Json.arr [], r) := by
  rw [parseVal, skipWs_cons _ _ (by decide)]
  dsimp only
  rw [if_neg (by decide), if_neg (by decide), if_pos rfl, skipWs_cons _ _ (by decide)]
  dsimp only
  rw [if_pos rfl]

/-- Parsing an empty printed object. -/
theorem parseVal_obj_nil (f : Nat) (r : Str) :
    parseVal (f + 1) (lbraceChar :: rbraceChar :: r) = some (Json.obj [], r) := by
  rw [parseVal, skipWs_cons _ _ (by decide)]
  dsimp only
  rw [if_neg (by decide), if_pos rfl, skipWs_cons _ _ (by decide)]
  dsimp only
  rw [if_pos rfl]

/-- The printed form of any value starts with a character that is not
whitespace and is none of the delimiter characters. -/
theorem printJson_shape (w : Json) :
    ∃ c t, printJson w = c :: t ∧ isWsChar c = false ∧ ¬(c = ']') ∧ ¬(c = rbraceChar) ∧
      ¬(c = ',') ∧ ¬(c = ':') := by
  cases w with
  | null => exact ⟨'n', _, rfl, by decide, by decide, by decide, by decide, by decide⟩
  | bool b =>
    cases b with
    | true => exact ⟨'t', _, rfl, by decide, by decide, by decide, by decide, by decide⟩
    | false => exact ⟨'f', _, rfl, by decide, by decide, by decide, by decide, by decide⟩
  | num n =>
    obtain ⟨c, t, he, hc⟩ := printInt_head n
    refine ⟨c, t, by rw [printJson, he], ?_, ?_, ?_, ?_, ?_⟩
    · exact (numHead_facts c hc).1
    all_goals {
      rcases hc with rfl | hd
      · decide
      · intro he2
        unfold isDigitChar at hd
        simp only [Bool.and_eq_true, decide_eq_true_eq] at hd
        rw [he2] at hd
        revert hd
        decide
    }
  | str s => exact ⟨quoteChar, _, rfl, by decide, by decide, by decide, by decide, by decide⟩
  | arr xs => exact ⟨'[', _, rfl, by decide, by decide, by decide, by decide, by decide⟩
  | obj kvs => exact ⟨lbraceChar, _, rfl, by decide, by decide, by decide, by decide, by decide⟩

/-- The printed form of a non-empty property list starts with a quote. -/
theorem printObjItems_cons_shape (k : Str) (v : Json) (kvs : List (Str × Json)) :
    ∃ t, printObjItems ((k, v) :: kvs) = quoteChar :: t := by
  cases kvs with
  | nil =>
    refine ⟨escapeStr k ++ [quoteChar] ++ (':' :: printJson v), ?_⟩
    simp [printObjItems, printString]
  | cons q rest =>
    refine ⟨escapeStr k ++ [quoteChar] ++ (':' :: (printJson v ++ ',' :: printObjItems (q :: rest))), ?_⟩
    simp [printObjItems, printString]

/-- The fuel-driven JSON parser inverts the printer: on a well-formed
value followed by a remainder that does not extend a trailing number,
`parseVal` returns exactly the printed value, and the array/object item
loops return the remaining items. -/
theorem parse_print_aux (fuel : Nat) :
    (∀ w rest, jsonWF w = true → jsize w ≤ fuel → noDigitHead rest = true →
      numTailOk rest = true → parseVal fuel (printJson w ++ rest) = some (w, rest)) ∧
    (∀ x xs acc rest, jsonWFList (x :: xs) = true → jsizeList (x :: xs) ≤ fuel →
      parseArrItems fuel acc (printArrItems (x :: xs) ++ (']' :: rest)) =
        some (Json.arr (acc ++ x :: xs), rest)) ∧
    (∀ k v kvs acc rest, jsonWFKvs ((k, v) :: kvs) = true →
      nodupKeys (acc ++ (k, v) :: kvs) = true → jsizeKvs ((k, v) :: kvs) ≤ fuel →
      parseObjItems fuel acc (printObjItems ((k, v) :: kvs) ++ (rbraceChar :: rest)) =
        some (Json.obj (acc ++ (k, v) :: kvs), rest)) := by
  induction fuel with
  | zero =>
    refine ⟨fun w rest _ hs _ _ => ?_, fun x xs acc rest _ hs => ?_,
      fun k v kvs acc rest _ _ hs => ?_⟩
    · have := jsize_pos w
      omega
    · unfold jsizeList at hs
      omega
    · unfold jsizeKvs at hs
      omega
  | succ f ih =>
    obtain ⟨ihA, ihB, ihC⟩ := ih
    refine ⟨?_, ?_, ?_⟩
    · intro w rest hwf hs hnd hnt
      cases w with
      | null =>
        have ep : printJson Json.null = 'n' :: 'u' :: 'l' :: 'l' :: [] := rfl
        rw [ep]
        simp only [List.cons_append, List.nil_append]
        exact parseVal_null f rest
      | bool b =>
        cases b with
        | true =>
          have ep : printJson (Json.bool true) = 't' :: 'r' :: 'u' :: 'e' :: [] := rfl
          rw [ep]
          simp only [List.cons_append, List.nil_append]
          exact parseVal_true f rest
        | false =>
          have ep : printJson (Json.bool false) = 'f' :: 'a' :: 'l' :: 's' :: 'e' :: [] := rfl
          rw [ep]
          simp only [List.cons_append, List.nil_append]
          exact parseVal_false f rest
      | num n =>
        have ep : printJson (Json.num n) = printInt n := rfl
        rw [ep]
        exact parseVal_num f n rest hnd hnt
      | str s =>
        have ep : printJson (Json.str s) = printString s := rfl
        rw [ep]
        exact parseVal_str f s rest
      | arr xs =>
        cases xs with
        | nil =>
          have ep : printJson (Json.arr []) = '[' :: ']' :: [] := rfl
          rw [ep]
          simp only [List.cons_append, List.nil_append]
          exact parseVal_arr_nil f rest
        | cons x xs2 =>
          have ep : printJson (Json.arr (x :: xs2)) =
              '[' :: (printArrItems (x :: xs2) ++ [']']) := rfl
          rw [ep]
          simp only [List.cons_append, List.append_assoc, List.singleton_append]
          obtain ⟨c, t, he, hw, hne1, hne2, hne3, hne4⟩ := printJson_shape x
          have he2 : ∃ t2, printArrItems (x :: xs2) = c :: t2 := by
            cases xs2 with
            | nil => exact ⟨t, by rw [printArrItems, he]⟩
            | cons y ys =>
              refine ⟨t ++ ',' :: printArrItems (y :: ys), ?_⟩
              rw [printArrItems, he]
              simp
          obtain ⟨t2, he2⟩ := he2
          rw [parseVal, skipWs_cons _ _ (by decide)]
          try dsimp only
          rw [if_neg (by decide), if_neg (by decide), if_pos rfl]
          rw [he2]
          simp only [List.cons_append]
          rw [skipWs_cons _ _ hw]
          try dsimp only
          rw [if_neg hne1]
          rw [← List.cons_append, ← he2]
          have hwfl : jsonWFList (x :: xs2) = true := by
            unfold jsonWF at hwf
            exact hwf
          have hsz : jsizeList (x :: xs2) ≤ f := by
            unfold jsize at hs
            omega
          simp only [List.nil_append]
          rw [ihB x xs2 [] rest hwfl hsz]
          simp
      | obj kvs =>
        cases kvs with
        | nil =>
          have ep : printJson (Json.obj []) = lbraceChar :: rbraceChar :: [] := rfl
          rw [ep]
          simp only [List.cons_append, List.nil_append]
          exact parseVal_obj_nil f rest
        | cons p kvs2 =>
          obtain ⟨k, v⟩ := p
          have ep : printJson (Json.obj ((k, v) :: kvs2)) =
              lbraceChar :: (printObjItems ((k, v) :: kvs2) ++ [rbraceChar]) := rfl
          rw [ep]
          simp only [List.cons_append, List.append_assoc, List.singleton_append]
          obtain ⟨t, he⟩ := printObjItems_cons_shape k v kvs2
          rw [parseVal, skipWs_cons _ _ (by decide)]
          try dsimp only
          rw [if_neg (by decide), if_pos rfl]
          rw [he]
          simp only [List.cons_append]
          rw [skipWs_cons _ _ (by decide)]
          try dsimp only
          rw [if_neg (by decide)]
          rw [← List.cons_append, ← he]
          have hparts : nodupKeys ((k, v) :: kvs2) = true ∧ jsonWFKvs ((k, v) :: kvs2) = true := by
            unfold jsonWF at hwf
            simpa using hwf
          have hsz : jsizeKvs ((k, v) :: kvs2) ≤ f := by
            unfold jsize at hs
            omega
          simp only [List.nil_append]
          rw [ihC k v kvs2 [] rest hparts.2 (by simpa using hparts.1) hsz]
          simp
    · intro x xs acc rest hwfl hsl
      have hwfx : jsonWF x = true ∧ jsonWFList xs = true := by
        rw [jsonWFList] at hwfl
        simpa using hwfl
      cases xs with
      | nil =>
        simp only [printArrItems]
        rw [parseArrItems]
        have hszx : jsize x ≤ f := by
          unfold jsizeList at hsl
          omega
        rw [ihA x (']' :: rest) hwfx.1 hszx rfl rfl]
        try dsimp only
        rw [skipWs_cons _ _ (by decide)]
        try dsimp only
        rw [if_neg (by decide), if_pos rfl]
      | cons y ys =>
        simp only [printArrItems]
        simp only [List.cons_append, List.append_assoc]
        rw [parseArrItems]
        have hpx := jsize_pos x
        have hszx : jsize x ≤ f := by
          unfold jsizeList at hsl
          omega
        have hszr : jsizeList (y :: ys) ≤ f := by
          rw [jsizeList] at hsl
          omega
        rw [ihA x (',' :: (printArrItems (y :: ys) ++ ']' :: rest)) hwfx.1 hszx rfl rfl]
        try dsimp only
        rw [skipWs_cons _ _ (by decide)]
        try dsimp only
        rw [if_pos rfl]
        rw [ihB y ys (acc ++ [x]) rest hwfx.2 hszr]
        simp
    · intro k v kvs acc rest hwfk hndk hsk
      have hx : jsonWF v = true ∧ jsonWFKvs kvs = true := by
        rw [jsonWFKvs] at hwfk
        simpa using hwfk
      have hkm : keyMem k acc = false := nodupKeys_mid k v acc kvs hndk
      have hpv := jsize_pos v
      cases kvs with
      | nil =>
        simp only [printObjItems]
        unfold printString
        simp only [List.cons_append, List.append_assoc, List.singleton_append]
        rw [parseObjItems]
        try dsimp only
        rw [if_pos rfl]
        rw [parseStringBody_escape]
        try dsimp only
        simp only [List.nil_append]
        rw [skipWs_cons _ _ (by decide)]
        try dsimp only
        rw [if_pos rfl]
        have hszv : jsize v ≤ f := by
          unfold jsizeKvs at hsk
          omega
        rw [ihA v (rbraceChar :: rest) hx.1 hszv rfl rfl]
        try dsimp only
        rw [skipWs_cons _ _ (by decide)]
        try dsimp only
        rw [if_neg (by decide), if_pos rfl]
        rw [objInsert_notmem k v acc hkm]
      | cons q kvs2 =>
        obtain ⟨k2, v2⟩ := q
        simp only [printObjItems]
        unfold printString
        simp only [List.cons_append, List.append_assoc, List.singleton_append]
        rw [parseObjItems]
        try dsimp only
        rw [if_pos rfl]
        rw [parseStringBody_escape]
        try dsimp only
        simp only [List.nil_append]
        rw [skipWs_cons _ _ (by decide)]
        try dsimp only
        rw [if_pos rfl]
        have hszv : jsize v ≤ f := by
          unfold jsizeKvs at hsk
          omega
        rw [ihA v (',' :: (printObjItems ((k2, v2) :: kvs2) ++ rbraceChar :: rest))
          hx.1 hszv rfl rfl]
        try dsimp only
        rw [skipWs_cons _ _ (by decide)]
        try dsimp only
        rw [if_pos rfl]
        obtain ⟨t2, he2⟩ := printObjItems_cons_shape k2 v2 kvs2
        rw [he2]
        simp only [List.cons_append]
        rw [skipWs_cons _ _ (by decide)]
        rw [← List.cons_append, ← he2]
        rw [objInsert_notmem k v acc hkm]
        have hnd2 : nodupKeys ((acc ++ [(k, v)]) ++ (k2, v2) :: kvs2) = true := by
          rw [List.append_assoc]
          simpa using hndk
        have hszr : jsizeKvs ((k2, v2) :: kvs2) ≤ f := by
          rw [jsizeKvs] at hsk
          omega
        rw [ihC k2 v2 kvs2 (acc ++ [(k, v)]) rest hx.2 hnd2 hszr]
        simp

mutual

/-- Size is bounded by printed length (values). -/
theorem jsize_le_print : ∀ w : Json, jsize w ≤ (printJson w).length
  | .null => by decide
  | .bool b => by cases b <;> decide
  | .num n => by
    obtain ⟨c, t, he, _⟩ := printInt_head n
    have ep : printJson (Json.num n) = printInt n := rfl
    rw [jsize, ep, he]
    simp
  | .str s => by
    have ep : printJson (Json.str s) = printString s := rfl
    rw [jsize, ep]
    unfold printString
    simp
  | .arr xs => by
    have h := jsizeList_le_print xs
    have ep : printJson (Json.arr xs) = '[' :: (printArrItems xs ++ [']']) := rfl
    rw [jsize, ep]
    simp only [List.length_cons, List.length_append, List.length_singleton]
    omega
  | .obj kvs => by
    have h := jsizeKvs_le_print kvs
    have ep : printJson (Json.obj kvs) = lbraceChar :: (printObjItems kvs ++ [rbraceChar]) := rfl
    rw [jsize, ep]
    simp only [List.length_cons, List.length_append, List.length_singleton]
    omega

/-- Size is bounded by printed length plus one (array items). -/
theorem jsizeList_le_print : ∀ xs : List Json, jsizeList xs ≤ (printArrItems xs).length + 1
  | [] => by
    rw [jsizeList]
    simp
  | [x] => by
    have h := jsize_le_print x
    rw [jsizeList, jsizeList, printArrItems]
    omega
  | x :: y :: ys => by
    have h1 := jsize_le_print x
    have h2 := jsizeList_le_print (y :: ys)
    rw [jsizeList, printArrItems]
    simp only [List.length_append, List.length_cons]
    omega

/-- Size is bounded by printed length plus one (object properties). -/
theorem jsizeKvs_le_print : ∀ kvs : List (Str × Json), jsizeKvs kvs ≤ (printObjItems kvs).length + 1
  | [] => by
    rw [jsizeKvs]
    simp
  | [(k, v)] => by
    have h := jsize_le_print v
    rw [jsizeKvs, jsizeKvs, printObjItems]
    simp only [List.length_append, List.length_cons]
    omega
  | (k, v) :: q :: kvs => by
    have h1 := jsize_le_print v
    have h2 := jsizeKvs_le_print (q :: kvs)
    rw [jsizeKvs, printObjItems]
    simp only [List.length_append, List.length_cons]
    omega

end

/-- JSON.parse inverts the printer on well-formed values. -/
theorem jsonParse_print (w : Json) (hwf : jsonWF w = true) :
    jsonParse (printJson w) = some w := by
  unfold jsonParse
  have hb : jsize w ≤ (printJson w).length + 1 := le_trans (jsize_le_print w) (by omega)
  have h := (parse_print_aux ((printJson w).length + 1)).1 w [] hwf hb rfl rfl
  rw [List.append_nil] at h
  rw [h]
  rfl

/-- Strict order on strings is asymmetric. -/
theorem strLt_asymm : ∀ a b : Str, strLt a b = true → strLt b a = false
  | [], [], h => by simp [strLt] at h
  | [], _ :: _, _ => by simp [strLt]
  | _ :: _, [], h => by simp [strLt] at h
  | a :: as, b :: bs, h => by
    rw [strLt] at h ⊢
    by_cases h1 : a.toNat < b.toNat
    · rw [if_neg (by omega), if_pos h1]
    · rw [if_neg h1] at h
      by_cases h2 : b.toNat < a.toNat
      · rw [if_pos h2] at h
        simp at h
      · rw [if_neg h2] at h
        rw [if_neg h2, if_neg h1]
        exact strLt_asymm as bs h

/-- Non-strict order on strings is total. -/
theorem strLe_total (a b : Str) : strLe a b = true ∨ strLe b a = true := by
  unfold strLe
  cases hab : strLt a b with
  | true =>
    left
    rw [strLt_asymm a b hab]
    rfl
  | false =>
    right
    rfl

/-- Key membership after a sorted insertion. -/
theorem keyMem_insertKv (k2 : Str) (p : Str × Json) : ∀ l : List (Str × Json),
    keyMem k2 (insertKv p l) = (decide (p.1 = k2) || keyMem k2 l) := by
  intro l
  induction l with
  | nil => simp [insertKv, keyMem]
  | cons q t ih =>
    rw [insertKv]
    split
    · rw [keyMem]
    · rw [keyMem, ih, keyMem]
      cases decide (q.1 = k2) <;> cases decide (p.1 = k2) <;> simp

/-- Key membership is invariant under sorting. -/
theorem keyMem_sortKvs (k2 : Str) : ∀ l : List (Str × Json),
    keyMem k2 (sortKvs l) = keyMem k2 l := by
  intro l
  induction l with
  | nil => rfl
  | cons p t ih =>
    rw [sortKvs, keyMem_insertKv, ih, keyMem]

/-- Sorted insertion preserves duplicate freedom. -/
theorem nodupKeys_insertKv (p : Str × Json) : ∀ l : List (Str × Json),
    nodupKeys (p :: l) = true → nodupKeys (insertKv p l) = true := by
  intro l
  induction l with
  | nil => intro h; exact h
  | cons q t ih =>
    intro h
    have hh : keyMem p.1 (q :: t) = false ∧ (keyMem q.1 t = false ∧ nodupKeys t = true) := by
      rw [nodupKeys, nodupKeys] at h
      simp only [Bool.and_eq_true, Bool.not_eq_true'] at h
      exact ⟨h.1, h.2⟩
    rw [insertKv]
    split
    · exact h
    · rw [nodupKeys]
      simp only [Bool.and_eq_true, Bool.not_eq_true']
      constructor
      · rw [keyMem_insertKv]
        have hq : keyMem q.1 t = false := hh.2.1
        have hpq : decide (p.1 = q.1) = false := by
          rw [keyMem] at hh
          rcases Bool.or_eq_false_iff.mp hh.1 with ⟨h1, _⟩
          simp only [decide_eq_false_iff_not] at h1 ⊢
          exact fun he => h1 he.symm
        rw [hq, hpq]
        rfl
      · apply ih
        rw [nodupKeys]
        simp only [Bool.and_eq_true, Bool.not_eq_true']
        refine ⟨?_, hh.2.2⟩
        rw [keyMem] at hh
        exact (Bool.or_eq_false_iff.mp hh.1).2

/-- Sorting preserves duplicate freedom. -/
theorem nodupKeys_sortKvs : ∀ l : List (Str × Json),
    nodupKeys l = true → nodupKeys (sortKvs l) = true := by
  intro l
  induction l with
  | nil => intro h; exact h
  | cons p t ih =>
    intro h
    rw [nodupKeys] at h
    simp only [Bool.and_eq_true, Bool.not_eq_true'] at h
    rw [sortKvs]
    apply nodupKeys_insertKv
    rw [nodupKeys]
    simp only [Bool.and_eq_true, Bool.not_eq_true']
    refine ⟨?_, ih h.2⟩
    rw [keyMem_sortKvs]
    exact h.1

/-- Canonicalizing values leaves keys untouched. -/
theorem keyMem_canonKvs (k2 : Str) : ∀ l : List (Str × Json),
    keyMem k2 (canonKvs l) = keyMem k2 l := by
  intro l
  induction l with
  | nil => rfl
  | cons p t ih =>
    obtain ⟨k, v⟩ := p
    rw [canonKvs, keyMem, keyMem, ih]

/-- Canonicalizing values preserves duplicate freedom. -/
theorem nodupKeys_canonKvs : ∀ l : List (Str × Json),
    nodupKeys (canonKvs l) = nodupKeys l := by
  intro l
  induction l with
  | nil => rfl
  | cons p t ih =>
    obtain ⟨k, v⟩ := p
    rw [canonKvs, nodupKeys, nodupKeys, ih, keyMem_canonKvs]

/-- Is the property list sorted by key? -/
def sortedKvs : List (Str × Json) → Bool
  | [] => true
  | [_] => true
  | p :: q :: t => strLe p.1 q.1 && sortedKvs (q :: t)

/-- Inserting into a sorted list keeps it sorted. -/
theorem sortedKvs_insertKv (p : Str × Json) : ∀ l, sortedKvs l = true →
    sortedKvs (insertKv p l) = true := by
  intro l
  induction l with
  | nil => intro _; rfl
  | cons q t ih =>
    intro h
    by_cases hle : strLe p.1 q.1 = true
    · rw [insertKv, if_pos hle, sortedKvs, hle, h]
      rfl
    · have hqp : strLe q.1 p.1 = true := by
        rcases strLe_total p.1 q.1 with h1 | h1
        · exact absurd h1 hle
        · exact h1
      rw [insertKv, if_neg hle]
      cases t with
      | nil =>
        rw [show insertKv p [] = [p] from rfl, sortedKvs, hqp]
        rfl
      | cons r t2 =>
        have hsq : strLe q.1 r.1 = true ∧ sortedKvs (r :: t2) = true := by
          rw [sortedKvs] at h
          simpa using h
        by_cases hpr : strLe p.1 r.1 = true
        · rw [insertKv, if_pos hpr, sortedKvs, hqp, sortedKvs, hpr, hsq.2]
          rfl
        · rw [insertKv, if_neg hpr, sortedKvs, hsq.1]
          have ih3 : sortedKvs (r :: insertKv p t2) = true := by
            have e : insertKv p (r :: t2) = r :: insertKv p t2 := by
              rw [insertKv, if_neg hpr]
            rw [← e]
            exact ih hsq.2
          rw [ih3]
          rfl

/-- Insertion sort sorts. -/
theorem sortKvs_sorted : ∀ l, sortedKvs (sortKvs l) = true := by
  intro l
  induction l with
  | nil => rfl
  | cons p t ih =>
    rw [sortKvs]
    exact sortedKvs_insertKv p _ ih

/-- Sorting a sorted list is the identity. -/
theorem sortKvs_of_sorted : ∀ l, sortedKvs l = true → sortKvs l = l := by
  intro l
  induction l with
  | nil => intro _; rfl
  | cons p t ih =>
    intro h
    rw [sortKvs]
    cases t with
    | nil => rfl
    | cons q t2 =>
      have hc : strLe p.1 q.1 = true ∧ sortedKvs (q :: t2) = true := by
        rw [sortedKvs] at h
        simpa using h
      rw [ih hc.2, insertKv, if_pos hc.1]

/-- Canonicalizing values commutes with sorted insertion. -/
theorem canonKvs_insertKv (k : Str) (v : Json) : ∀ l,
    canonKvs (insertKv (k, v) l) = insertKv (k, canon v) (canonKvs l) := by
  intro l
  induction l with
  | nil => rfl
  | cons q t ih =>
    obtain ⟨k2, v2⟩ := q
    by_cases hle : strLe k k2 = true
    · have e1 : insertKv (k, v) ((k2, v2) :: t) = (k, v) :: (k2, v2) :: t := by
        rw [insertKv]
        dsimp only
        rw [if_pos hle]
      have e2 : insertKv (k, canon v) ((k2, canon v2) :: canonKvs t) =
          (k, canon v) :: (k2, canon v2) :: canonKvs t := by
        rw [insertKv]
        dsimp only
        rw [if_pos hle]
      rw [e1, show canonKvs ((k2, v2) :: t) = (k2, canon v2) :: canonKvs t from rfl, e2]
      rfl
    · have e1 : insertKv (k, v) ((k2, v2) :: t) = (k2, v2) :: insertKv (k, v) t := by
        rw [insertKv]
        dsimp only
        rw [if_neg hle]
      have e2 : insertKv (k, canon v) ((k2, canon v2) :: canonKvs t) =
          (k2, canon v2) :: insertKv (k, canon v) (canonKvs t) := by
        rw [insertKv]
        dsimp only
        rw [if_neg hle]
      rw [e1, show canonKvs ((k2, v2) :: t) = (k2, canon v2) :: canonKvs t from rfl, e2,
        show canonKvs ((k2, v2) :: insertKv (k, v) t)
          = (k2, canon v2) :: canonKvs (insertKv (k, v) t) from rfl, ih]

/-- Canonicalizing values commutes with sorting. -/
theorem canonKvs_sortKvs : ∀ l, canonKvs (sortKvs l) = sortKvs (canonKvs l) := by
  intro l
  induction l with
  | nil => rfl
  | cons p t ih =>
    obtain ⟨k, v⟩ := p
    rw [sortKvs, canonKvs_insertKv, ih]
    rfl

mutual

/-- Canonicalization is idempotent (values). -/
theorem canon_idem : ∀ w : Json, canon (canon w) = canon w
  | .null => rfl
  | .bool _ => rfl
  | .num _ => rfl
  | .str _ => rfl
  | .arr xs => by
    rw [show canon (Json.arr xs) = Json.arr (canonList xs) from rfl,
      show canon (Json.arr (canonList xs)) = Json.arr (canonList (canonList xs)) from rfl,
      canonList_idem xs]
  | .obj kvs => by
    rw [show canon (Json.obj kvs) = Json.obj (sortKvs (canonKvs kvs)) from rfl,
      show canon (Json.obj (sortKvs (canonKvs kvs)))
        = Json.obj (sortKvs (canonKvs (sortKvs (canonKvs kvs)))) from rfl,
      canonKvs_sortKvs, canonKvs_idem kvs, sortKvs_of_sorted _ (sortKvs_sorted _)]

/-- Canonicalization is idempotent (lists). -/
theorem canonList_idem : ∀ xs : List Json, canonList (canonList xs) = canonList xs
  | [] => rfl
  | x :: t => by
    rw [show canonList (x :: t) = canon x :: canonList t from rfl,
      show canonList (canon x :: canonList t)
        = canon (canon x) :: canonList (canonList t) from rfl,
      canon_idem x, canonList_idem t]

/-- Canonicalization is idempotent (property lists). -/
theorem canonKvs_idem : ∀ l : List (Str × Json), canonKvs (canonKvs l) = canonKvs l
  | [] => rfl
  | (k, v) :: t => by
    rw [show canonKvs ((k, v) :: t) = (k, canon v) :: canonKvs t from rfl,
      show canonKvs ((k, canon v) :: canonKvs t)
        = (k, canon (canon v)) :: canonKvs (canonKvs t) from rfl,
      canon_idem v, canonKvs_idem t]

end

/-- Sorted insertion preserves value well-formedness. -/
theorem jsonWFKvs_insertKv (k : Str) (v : Json) : ∀ l, jsonWF v = true →
    jsonWFKvs l = true → jsonWFKvs (insertKv (k, v) l) = true := by
  intro l
  induction l with
  | nil =>
    intro hv _
    rw [show insertKv (k, v) [] = [(k, v)] from rfl, jsonWFKvs, hv, jsonWFKvs]
    rfl
  | cons q t ih =>
    intro hv hl
    obtain ⟨k2, v2⟩ := q
    have hl2 : jsonWF v2 = true ∧ jsonWFKvs t = true := by
      rw [jsonWFKvs] at hl
      simpa using hl
    by_cases hle : strLe k k2 = true
    · rw [insertKv]
      dsimp only
      rw [if_pos hle, jsonWFKvs, hv, hl]
      rfl
    · rw [insertKv]
      dsimp only
      rw [if_neg hle, jsonWFKvs, hl2.1, ih hv hl2.2]
      rfl

/-- Sorting preserves value well-formedness. -/
theorem jsonWFKvs_sortKvs : ∀ l, jsonWFKvs l = true → jsonWFKvs (sortKvs l) = true := by
  intro l
  induction l with
  | nil => intro h; exact h
  | cons p t ih =>
    intro h
    obtain ⟨k, v⟩ := p
    have h2 : jsonWF v = true ∧ jsonWFKvs t = true := by
      rw [jsonWFKvs] at h
      simpa using h
    rw [sortKvs]
    exact jsonWFKvs_insertKv k v _ h2.1 (ih h2.2)

mutual

/-- Canonicalization preserves well-formedness (values). -/
theorem jsonWF_canon : ∀ w : Json, jsonWF w = true → jsonWF (canon w) = true
  | .null => fun h => h
  | .bool _ => fun h => h
  | .num _ => fun h => h
  | .str _ => fun h => h
  | .arr xs => fun h => by
    rw [show canon (Json.arr xs) = Json.arr (canonList xs) from rfl, jsonWF]
    rw [jsonWF] at h
    exact jsonWFList_canon xs h
  | .obj kvs => fun h => by
    rw [show canon (Json.obj kvs) = Json.obj (sortKvs (canonKvs kvs)) from rfl, jsonWF]
    rw [jsonWF] at h
    simp only [Bool.and_eq_true] at h ⊢
    constructor
    · apply nodupKeys_sortKvs
      rw [nodupKeys_canonKvs]
      exact h.1
    · exact jsonWFKvs_sortKvs _ (jsonWFKvs_canon kvs h.2)

/-- Canonicalization preserves well-formedness (lists). -/
theorem jsonWFList_canon : ∀ xs : List Json, jsonWFList xs = true →
    jsonWFList (canonList xs) = true
  | [] => fun h => h
  | x :: t => fun h => by
    rw [show canonList (x :: t) = canon x :: canonList t from rfl, jsonWFList]
    rw [jsonWFList] at h
    simp only [Bool.and_eq_true] at h ⊢
    exact ⟨jsonWF_canon x h.1, jsonWFList_canon t h.2⟩

/-- Canonicalization preserves well-formedness (property lists). -/
theorem jsonWFKvs_canon : ∀ l : List (Str × Json), jsonWFKvs l = true →
    jsonWFKvs (canonKvs l) = true
  | [] => fun h => h
  | (k, v) :: t => fun h => by
    rw [show canonKvs ((k, v) :: t) = (k, canon v) :: canonKvs t from rfl, jsonWFKvs]
    rw [jsonWFKvs] at h
    simp only [Bool.and_eq_true] at h ⊢
    exact ⟨jsonWF_canon v h.1, jsonWFKvs_canon t h.2⟩

end

/-- Lookup after a sorted insertion into a duplicate-free list. -/
theorem jLookup_insertKv (k : Str) (v : Json) (key : Str) : ∀ l,
    nodupKeys ((k, v) :: l) = true →
    jLookup (insertKv (k, v) l) key = if k = key then some v else jLookup l key := by
  intro l
  induction l with
  | nil =>
    intro _
    rw [show insertKv (k, v) [] = [(k, v)] from rfl, jLookup]
    rfl
  | cons q t ih =>
    intro h
    obtain ⟨k2, v2⟩ := q
    simp only [nodupKeys, keyMem, Bool.and_eq_true, Bool.not_eq_true', Bool.or_eq_false_iff,
      decide_eq_false_iff_not] at h
    have hne : ¬(k = k2) := fun he => h.1.1 he.symm
    have hnd2 : nodupKeys ((k, v) :: t) = true := by
      simp only [nodupKeys, Bool.and_eq_true, Bool.not_eq_true']
      exact ⟨h.1.2, h.2.2⟩
    by_cases hle : strLe k k2 = true
    · rw [insertKv]
      dsimp only
      rw [if_pos hle, jLookup]
    · rw [insertKv]
      dsimp only
      rw [if_neg hle, jLookup, ih hnd2, jLookup]
      by_cases hk2 : k2 = key
      · have hkne : ¬(k = key) := fun he => hne (he.trans hk2.symm)
        rw [if_pos hk2, if_neg hkne, if_pos hk2]
      · rw [if_neg hk2, if_neg hk2]

/-- Lookup is invariant under sorting of a duplicate-free list. -/
theorem jLookup_sortKvs (key : Str) : ∀ l, nodupKeys l = true →
    jLookup (sortKvs l) key = jLookup l key := by
  intro l
  induction l with
  | nil => intro _; rfl
  | cons p t ih =>
    intro h
    obtain ⟨k, v⟩ := p
    have h2 : keyMem k t = false ∧ nodupKeys t = true := by
      rw [nodupKeys] at h
      simpa using h
    rw [sortKvs, jLookup_insertKv, ih h2.2, jLookup]
    rw [nodupKeys, keyMem_sortKvs, h2.1, nodupKeys_sortKvs t h2.2]
    rfl

/-- Lookup after canonicalizing the values. -/
theorem jLookup_canonKvs (key : Str) : ∀ l,
    jLookup (canonKvs l) key = (jLookup l key).map canon := by
  intro l
  induction l with
  | nil => rfl
  | cons p t ih =>
    obtain ⟨k, v⟩ := p
    rw [show canonKvs ((k, v) :: t) = (k, canon v) :: canonKvs t from rfl, jLookup, jLookup]
    by_cases hk : k = key
    · rw [if_pos hk, if_pos hk]
      rfl
    · rw [if_neg hk, if_neg hk, ih]

/-- Lookup in the canonical form of a duplicate-free object. -/
theorem jLookup_canon_obj (key : Str) (kvs : List (Str × Json))
    (h : nodupKeys kvs = true) :
    jLookup (sortKvs (canonKvs kvs)) key = (jLookup kvs key).map canon := by
  rw [jLookup_sortKvs key _ (by rw [nodupKeys_canonKvs]; exact h), jLookup_canonKvs]

/-- The token produced by `signToken` on a valid payload. -/
def signedToken (S : SignSecret) (P : Json) : Str :=
  S.secretKey ++ ':' ::
    (b64uStringify (hmacSha256 (utf8Encode (b64uStringify (utf8Encode (stableStringify P))))
        (utf8Encode S.secretValue)) ++
      ':' :: b64uStringify (utf8Encode (stableStringify P)))

/-- On a valid payload `signToken` returns the three-segment token. -/
theorem signToken_ok (S : SignSecret) (P : Json) (hvalid : isValidSignPayload P = true) :
    signToken S P = Except.ok (signedToken S P) := by
  rw [signToken, if_pos hvalid]
  rfl

/-- Splitting the signed token recovers its three segments. -/
theorem splitColon_signedToken (S : SignSecret) (P : Json)
    (hkey : colonFree S.secretKey = true) :
    splitColon (signedToken S P) =
      [S.secretKey,
        b64uStringify (hmacSha256 (utf8Encode (b64uStringify (utf8Encode (stableStringify P))))
          (utf8Encode S.secretValue)),
        b64uStringify (utf8Encode (stableStringify P))] := by
  unfold signedToken
  rw [splitColon_append _ _ hkey, splitColon_append _ _ (colonFree_b64uStringify _),
    splitColon_colonFree _ (colonFree_b64uStringify _)]

/-- Parsing a signed token recovers the secret key identifier and the
canonical form of the payload. -/
theorem parseToken_signedToken (S : SignSecret) (P : Json)
    (hkey : colonFree S.secretKey = true) (hwf : jsonWF P = true) :
    parseToken (signedToken S P) = Except.ok (some ⟨S.secretKey, canon P⟩) := by
  rw [parseToken.eq_def, splitColon_signedToken S P hkey]
  dsimp only
  rw [b64u_roundtrip _ (utf8Encode_lt _), utf8_roundtrip]
  unfold stableStringify
  dsimp only
  rw [jsonParse_print _ (jsonWF_canon P hwf)]

/-- Well-formed lookups return well-formed values. -/
theorem jsonWF_jLookup : ∀ (kvs : List (Str × Json)) (k : Str) (v : Json),
    jsonWFKvs kvs = true → jLookup kvs k = some v → jsonWF v = true := by
  intro kvs
  induction kvs with
  | nil => intro k v _ hl; simp [jLookup] at hl
  | cons p t ih =>
    intro k v hwf hl
    obtain ⟨k2, v2⟩ := p
    rw [jsonWFKvs] at hwf
    simp only [Bool.and_eq_true] at hwf
    rw [jLookup] at hl
    by_cases hk : k2 = k
    · rw [if_pos hk] at hl
      cases hl
      exact hwf.1
    · rw [if_neg hk] at hl
      exact ih k v hwf.2 hl

/-- Spec-side reading of the claim: the `expiredTime` property is absent,
or is a string denoting an instant strictly in the future. -/
def expiredTimeAbsentOrFuture (now tzMin : Int) (P : Json) : Bool :=
  match P with
  | .obj kvs =>
    match jLookup kvs expiredTimeKey with
    | none => true
    | some (.str s) =>
      match dayjsParse tzMin s with
      | some t => decide (now < t)
      | none => false
    | some _ => false
  | _ => false

/-- An absent-or-future `expiredTime` makes the canonical payload unexpired. -/
theorem isExpired_canon_false (now tzMin : Int) (kvs : List (Str × Json))
    (hnd : nodupKeys kvs = true)
    (hexp : expiredTimeAbsentOrFuture now tzMin (Json.obj kvs) = true) :
    isExpiredTokenPayload now tzMin (canon (Json.obj kvs)) = false := by
  rw [show canon (Json.obj kvs) = Json.obj (sortKvs (canonKvs kvs)) from rfl]
  rw [isExpiredTokenPayload]
  try dsimp only
  rw [jLookup_canon_obj _ _ hnd]
  rw [expiredTimeAbsentOrFuture] at hexp
  try dsimp only at hexp
  cases hl : jLookup kvs expiredTimeKey with
  | none => simp [decide_eq_false_iff_not]
  | some v =>
    rw [hl] at hexp
    cases v with
    | str s =>
      simp only [Option.map_some']
      rw [show canon (Json.str s) = Json.str s from rfl]
      dsimp only at hexp ⊢
      cases hp : dayjsParse tzMin s with
      | none => rfl
      | some t =>
        rw [hp] at hexp
        simp at hexp ⊢
        omega
    | null => simp at hexp
    | bool b => simp at hexp
    | num n => simp at hexp
    | arr xs => simp at hexp
    | obj kvs2 => simp at hexp

/-- A structurally valid payload is an object. -/
theorem isValidSignPayload_obj (P : Json) (h : isValidSignPayload P = true) :
    ∃ kvs, P = Json.obj kvs := by
  cases P with
  | obj kvs => exact ⟨kvs, rfl⟩
  | null => exact absurd h (by decide)
  | bool b => exact absurd h (by cases b <;> decide)
  | num n => exact absurd h (by rw [show isValidSignPayload (Json.num n) = false from rfl]; decide)
  | str s => exact absurd h (by rw [show isValidSignPayload (Json.str s) = false from rfl]; decide)
  | arr xs => exact absurd h (by rw [show isValidSignPayload (Json.arr xs) = false from rfl]; decide)

/-- Structural validity only depends on the canonical form. -/
theorem isValidSignPayload_canon (P : Json) (hwf : jsonWF P = true) :
    isValidSignPayload (canon P) = isValidSignPayload P := by
  cases P with
  | null => rfl
  | bool b => rfl
  | num n => rfl
  | str s => rfl
  | arr xs => rfl
  | obj kvs =>
    rw [jsonWF] at hwf
    simp only [Bool.and_eq_true] at hwf
    rw [show canon (Json.obj kvs) = Json.obj (sortKvs (canonKvs kvs)) from rfl]
    rw [isValidSignPayload, isValidSignPayload]
    rw [jLookup_canon_obj _ _ hwf.1, jLookup_canon_obj _ _ hwf.1, jLookup_canon_obj _ _ hwf.1]
    cases h1 : jLookup kvs createdTimeKey with
    | none => rfl
    | some v =>
      cases v with
      | null => rfl
      | bool _ => rfl
      | num _ => rfl
      | arr _ => rfl
      | obj _ => rfl
      | str s =>
        cases h2 : jLookup kvs expiredTimeKey with
        | none =>
          cases h3 : jLookup kvs dataKey with
          | none => rfl
          | some d =>
            cases d with
            | null => rfl
            | bool _ => rfl
            | num _ => rfl
            | str _ => rfl
            | arr _ => rfl
            | obj dl =>
              have hd := jsonWF_jLookup kvs dataKey (Json.obj dl) hwf.2 h3
              rw [jsonWF] at hd
              simp only [Bool.and_eq_true] at hd
              simp only [Option.map_some']
              rw [show canon (Json.obj dl) = Json.obj (sortKvs (canonKvs dl)) from rfl]
              dsimp only
              rw [jLookup_canon_obj _ _ hd.1, jLookup_canon_obj _ _ hd.1]
              cases h4 : jLookup dl userIdKey with
              | none => rfl
              | some u =>
                cases u with
                | null => rfl
                | bool _ => rfl
                | num _ => rfl
                | arr _ => rfl
                | obj _ => rfl
                | str su =>
                  cases h5 : jLookup dl usernameKey with
                  | none => rfl
                  | some w => cases w <;> rfl
        | some v2 =>
          cases v2 with
          | null => rfl
          | bool _ => rfl
          | num _ => rfl
          | arr _ => rfl
          | obj _ => rfl
          | str s2 =>
            cases h3 : jLookup kvs dataKey with
            | none => rfl
            | some d =>
              cases d with
              | null => rfl
              | bool _ => rfl
              | num _ => rfl
              | str _ => rfl
              | arr _ => rfl
              | obj dl =>
                have hd := jsonWF_jLookup kvs dataKey (Json.obj dl) hwf.2 h3
                rw [jsonWF] at hd
                simp only [Bool.and_eq_true] at hd
                simp only [Option.map_some']
                rw [show canon (Json.obj dl) = Json.obj (sortKvs (canonKvs dl)) from rfl]
                dsimp only
                rw [jLookup_canon_obj _ _ hd.1, jLookup_canon_obj _ _ hd.1]
                cases h4 : jLookup dl userIdKey with
                | none => rfl
                | some u =>
                  cases u with
                  | null => rfl
                  | bool _ => rfl
                  | num _ => rfl
                  | arr _ => rfl
                  | obj _ => rfl
                  | str su =>
                    cases h5 : jLookup dl usernameKey with
                    | none => rfl
                    | some w => cases w <;> rfl

/-- Property list of the repository's first test payload
(src/source/index.test.ts). -/
def testKvs : List (Str × Json) := [
  (createdTimeKey, Json.str "2020-12-31T16:00:00.000Z".toList),
  (expiredTimeKey, Json.str "2020-12-31T16:00:00.000Z".toList),
  (dataKey, Json.obj [(userIdKey, Json.str "test".toList),
    (usernameKey, Json.str "test".toList)])]

/-- The repository's first test payload. -/
def testPayload : Json := Json.obj testKvs

/-- The repository's test secret `("test", "test")`. -/
def testSecret : SignSecret := ⟨"test".toList, "test".toList⟩

/-- The token the repository's test suite expects for the first test case. -/
def testToken : Str :=
  "test:LiYiKKE_wahKBZGLWvUcQIKj5HC7WcBxqpuiGo5g330:eyJjcmVhdGVkVGltZSI6IjIwMjAtMTItMzFUMTY6MDA6MDAuMDAwWiIsImRhdGEiOnsidXNlcklkIjoidGVzdCIsInVzZXJuYW1lIjoidGVzdCJ9LCJleHBpcmVkVGltZSI6IjIwMjAtMTItMzFUMTY6MDA6MDAuMDAwWiJ9".toList

/-- The test token with one character of its signature segment changed
(`L` to `M` at the start of the second segment). -/
def tamperedToken : Str :=
  "test:MiYiKKE_wahKBZGLWvUcQIKj5HC7WcBxqpuiGo5g330:eyJjcmVhdGVkVGltZSI6IjIwMjAtMTItMzFUMTY6MDA6MDAuMDAwWiIsImRhdGEiOnsidXNlcklkIjoidGVzdCIsInVzZXJuYW1lIjoidGVzdCJ9LCJleHBpcmVkVGltZSI6IjIwMjAtMTItMzFUMTY6MDA6MDAuMDAwWiJ9".toList

set_option maxRecDepth 1000000

/-- Validation of the embedding against the repository's own test suite:
the model reproduces the expected token of the first test case byte for
byte. -/
theorem signToken_test_vector : signToken testSecret testPayload = Except.ok testToken := rfl

/-- The repository's second test payload, with extra keys in `data`. -/
def testPayload2 : Json := Json.obj [
  (createdTimeKey, Json.str "2020-12-31T16:00:00.000Z".toList),
  (expiredTimeKey, Json.str "2020-12-31T16:00:00.000Z".toList),
  (dataKey, Json.obj [(userIdKey, Json.str "test".toList),
    (usernameKey, Json.str "test".toList),
    ("other1".toList, Json.str "test".toList),
    ("other2".toList, Json.str "test".toList),
    ("other3".toList, Json.str "test".toList)])]

/-- Validation of the embedding against the repository's second test
case (extra `data` keys are serialized in sorted key order). -/
theorem signToken_test_vector2 : signToken testSecret testPayload2 = Except.ok
    ("test:fzl93RfPNekvCD_o7HLNo4lwVnYkJY6_K_o1lhGSCn0:eyJjcmVhdGVkVGltZSI6IjIwMjAtMTItMzFUMTY6MDA6MDAuMDAwWiIsImRhdGEiOnsib3RoZXIxIjoidGVzdCIsIm90aGVyMiI6InRlc3QiLCJvdGhlcjMiOiJ0ZXN0IiwidXNlcklkIjoidGVzdCIsInVzZXJuYW1lIjoidGVzdCJ9LCJleHBpcmVkVGltZSI6IjIwMjAtMTItMzFUMTY6MDA6MDAuMDAwWiJ9".toList) := rfl

/-- C1: the spec claims that `verifyToken (signToken S P) S` returns
`true` whenever the valid payload's `expiredTime` is absent or strictly
in the future.  The code instead returns `false` for every such token:
line 96 of src/source/index.ts compares the recreated signature to the
token's signature segment with `!==`, so a token whose signature is
correct always fails verification.  This theorem proves the uniform
`false` result for all valid, well-formed, unexpired payloads and all
secrets whose key identifier contains no colon. -/
theorem c1_sign_then_verify_returns_false
    (now tzMin : Int) (S : SignSecret) (P : Json)
    (hkey : colonFree S.secretKey = true)
    (hvalid : isValidSignPayload P = true)
    (hwf : jsonWF P = true)
    (hexp : expiredTimeAbsentOrFuture now tzMin P = true) :
    ∃ tok, signToken S P = Except.ok tok ∧ verifyToken now tzMin tok S = Except.ok false := by
  refine ⟨signedToken S P, signToken_ok S P hvalid, ?_⟩
  obtain ⟨kvs, hPk⟩ := isValidSignPayload_obj P hvalid
  rw [verifyToken.eq_def, splitColon_signedToken S P hkey]
  dsimp only
  rw [parseToken_signedToken S P hkey hwf]
  dsimp only
  subst hPk
  have hnd : nodupKeys kvs = true := by
    rw [jsonWF] at hwf
    simp only [Bool.and_eq_true] at hwf
    exact hwf.1
  rw [isExpired_canon_false now tzMin kvs hnd hexp]
  rw [if_neg (by decide)]
  simp

/-- Witness for C1 at the repository's test inputs, verified at an
instant before the payload's expiry. -/
theorem c1_witness :
    colonFree testSecret.secretKey = true ∧ isValidSignPayload testPayload = true ∧
    jsonWF testPayload = true ∧ expiredTimeAbsentOrFuture 0 0 testPayload = true ∧
    ∃ tok, signToken testSecret testPayload = Except.ok tok ∧
      verifyToken 0 0 tok testSecret = Except.ok false :=
  ⟨by decide, by decide, by decide, by decide,
    c1_sign_then_verify_returns_false 0 0 testSecret testPayload
      (by decide) (by decide) (by decide) (by decide)⟩

/-- C2: the spec claims `verifyToken t S` returns `true` only if the
HMAC-SHA256 signature recomputed over the third segment equals the
second segment.  The code does the opposite (`!==` on line 96): here the
token `k:x:MQ` verifies as `true` under the secret `(k, v)` although the
recomputed signature differs from its signature segment `x`. -/
theorem c2_verify_true_with_mismatched_signature :
    verifyToken 0 0 ("k:x:MQ".toList) ⟨"k".toList, "v".toList⟩ = Except.ok true ∧
    b64uStringify (hmacSha256 (utf8Encode ("MQ".toList)) (utf8Encode ("v".toList)))
      ≠ "x".toList :=
  ⟨rfl, by decide⟩

/-- C3: the spec claims that changing a single character of the
signature segment of a valid token makes `verifyToken` return `false`.
With the inverted comparison it returns `true`: the repository's own
test-vector token, with the first character of its signature segment
changed from `L` to `M`, verifies as `true` at an instant before its
expiry (while the untampered token verifies as `false`). -/
theorem c3_tampered_signature_verifies :
    signToken testSecret testPayload = Except.ok testToken ∧
    tamperedToken.length = testToken.length ∧
    (List.zipWith (fun a b => decide (a ≠ b)) testToken tamperedToken).count true = 1 ∧
    verifyToken 0 0 tamperedToken testSecret = Except.ok true ∧
    verifyToken 0 0 testToken testSecret = Except.ok false :=
  ⟨rfl, rfl, by decide, rfl, rfl⟩

/-- C4: round trip.  Signing a structurally valid, well-formed payload
and parsing the resulting token yields the payload's canonical form
together with the secret key identifier; the canonical form is
semantically equal to the original payload (field for field, extra
`data` keys included, independent of property insertion order). -/
theorem c4_parse_sign_roundtrip (S : SignSecret) (P : Json)
    (hkey : colonFree S.secretKey = true)
    (hvalid : isValidSignPayload P = true)
    (hwf : jsonWF P = true) :
    ∃ tok, signToken S P = Except.ok tok ∧
      parseToken tok = Except.ok (some ⟨S.secretKey, canon P⟩) ∧ jsonEqv (canon P) P :=
  ⟨signedToken S P, signToken_ok S P hvalid, parseToken_signedToken S P hkey hwf,
    canon_idem P⟩

/-- Witness for C4 at the repository's test inputs. -/
theorem c4_witness :
    colonFree testSecret.secretKey = true ∧ isValidSignPayload testPayload = true ∧
    jsonWF testPayload = true ∧
    ∃ tok, signToken testSecret testPayload = Except.ok tok ∧
      parseToken tok = Except.ok (some ⟨testSecret.secretKey, canon testPayload⟩) ∧
      jsonEqv (canon testPayload) testPayload :=
  ⟨by decide, by decide, by decide,
    c4_parse_sign_roundtrip testSecret testPayload (by decide) (by decide) (by decide)⟩

/-- C5: the spec claims `parseToken` and `verifyToken` are total and
never raise.  The crypto-js UTF-8 decoding on line 111 of
src/source/index.ts runs outside the try/catch, so the token `a:b:_w`,
whose third segment decodes to the invalid UTF-8 byte 0xFF, makes both
functions throw `Malformed UTF-8 data` instead of returning a sentinel. -/
theorem c5_parse_throws_on_malformed_utf8 :
    parseToken ("a:b:_w".toList) = Except.error malformedUtf8Msg ∧
    verifyToken 0 0 ("a:b:_w".toList) ⟨"a".toList, "s".toList⟩
      = Except.error malformedUtf8Msg :=
  ⟨rfl, rfl⟩

/-- C6 counterexample: the claim requires three NON-EMPTY segments, but
the code only checks the segment count.  The token `::MQ` splits into
three segments of which two are empty, yet `parseToken` returns a
non-null result, and `verifyToken` even returns `true` for a secret with
an empty key identifier. -/
theorem c6_counterexample_empty_segments_accepted :
    splitColon ("::MQ".toList) = [[], [], "MQ".toList] ∧
    parseToken ("::MQ".toList) = Except.ok (some ⟨[], Json.num 1⟩) ∧
    verifyToken 0 0 ("::MQ".toList) ⟨[], "v".toList⟩ = Except.ok true :=
  ⟨rfl, rfl, rfl⟩

/-- C6 amended: a token whose split on `:` does not yield exactly three
segments (empty segments permitted) is treated as malformed: `parseToken`
returns null and `verifyToken` returns false, independent of signature
validity. -/
theorem c6_amended_segment_count (t : Str) (h : (splitColon t).length ≠ 3) :
    parseToken t = Except.ok none ∧
    ∀ (now tzMin : Int) (S : SignSecret), verifyToken now tzMin t S = Except.ok false := by
  cases hsp : splitColon t with
  | nil =>
    exact ⟨by rw [parseToken.eq_def, hsp], fun now tz S => by rw [verifyToken.eq_def, hsp]⟩
  | cons a l1 =>
    cases l1 with
    | nil =>
      exact ⟨by rw [parseToken.eq_def, hsp], fun now tz S => by rw [verifyToken.eq_def, hsp]⟩
    | cons b l2 =>
      cases l2 with
      | nil =>
        exact ⟨by rw [parseToken.eq_def, hsp], fun now tz S => by rw [verifyToken.eq_def, hsp]⟩
      | cons c l3 =>
        cases l3 with
        | nil => exact absurd (show (splitColon t).length = 3 by rw [hsp]; rfl) h
        | cons d l4 =>
          exact ⟨by rw [parseToken.eq_def, hsp], fun now tz S => by rw [verifyToken.eq_def, hsp]⟩

/-- Witness for the amended C6 at a one-segment token. -/
theorem c6_witness :
    (splitColon ("ab".toList)).length ≠ 3 ∧
    parseToken ("ab".toList) = Except.ok none ∧
    verifyToken 0 0 ("ab".toList) ⟨"x".toList, "y".toList⟩ = Except.ok false :=
  ⟨by decide, (c6_amended_segment_count ("ab".toList) (by decide)).1,
    (c6_amended_segment_count ("ab".toList) (by decide)).2 0 0 ⟨"x".toList, "y".toList⟩⟩

/-- C7: `isExpiredTokenPayload` returns `false` when the payload's
`expiredTime` is absent, and when `expiredTime` is a string denoting an
ISO-8601 instant `t` it returns `true` exactly when the current instant
is strictly after `t` on the normalized (UTC-millisecond) timeline. -/
theorem c7_isExpired_spec (now tzMin : Int) (kvs : List (Str × Json)) :
    (jLookup kvs expiredTimeKey = none →
      isExpiredTokenPayload now tzMin (Json.obj kvs) = false) ∧
    (∀ s t, jLookup kvs expiredTimeKey = some (Json.str s) → dayjsParse tzMin s = some t →
      (isExpiredTokenPayload now tzMin (Json.obj kvs) = true ↔ t < now)) := by
  constructor
  · intro h
    simp only [isExpiredTokenPayload, h]
    simp
  · intro s t h hp
    simp only [isExpiredTokenPayload, h, hp]
    simp

/-- Witness for C7 at the repository's test payload: at one millisecond
after the stored expiry instant the payload counts as expired. -/
theorem c7_witness :
    isExpiredTokenPayload 1609430400001 0 (Json.obj testKvs) = true ↔
      (1609430400000 : Int) < 1609430400001 :=
  (c7_isExpired_spec 1609430400001 0 testKvs).2
    ("2020-12-31T16:00:00.000Z".toList) 1609430400000 rfl rfl

/-- Spec-side reading of C8: the candidate is an object with a string
`createdTime`, an `expiredTime` that is absent or a string, and an
object `data` binding string `userId` and `username`; nothing else is
constrained, so extra keys anywhere are permitted. -/
def SpecValidPayload (c : Json) : Prop :=
  ∃ kvs, c = Json.obj kvs ∧
    (∃ s, jLookup kvs createdTimeKey = some (Json.str s)) ∧
    (jLookup kvs expiredTimeKey = none ∨
      ∃ s, jLookup kvs expiredTimeKey = some (Json.str s)) ∧
    (∃ d, jLookup kvs dataKey = some (Json.obj d) ∧
      (∃ s, jLookup d userIdKey = some (Json.str s)) ∧
      (∃ s, jLookup d usernameKey = some (Json.str s)))

/-- C8: the zod schema check agrees exactly with the spec's description
of structural validity. -/
theorem c8_valid_iff_spec (c : Json) : isValidSignPayload c = true ↔ SpecValidPayload c := by
  constructor
  · intro h
    obtain ⟨kvs, rfl⟩ := isValidSignPayload_obj c h
    rw [isValidSignPayload] at h
    simp only [Bool.and_eq_true] at h
    obtain ⟨⟨h1, h2⟩, h3⟩ := h
    refine ⟨kvs, rfl, ?_, ?_, ?_⟩
    · cases hx : jLookup kvs createdTimeKey with
      | none => rw [hx] at h1; simp at h1
      | some v =>
        cases v with
        | str s => exact ⟨s, rfl⟩
        | null => rw [hx] at h1; simp at h1
        | bool b => rw [hx] at h1; simp at h1
        | num n => rw [hx] at h1; simp at h1
        | arr xs => rw [hx] at h1; simp at h1
        | obj o => rw [hx] at h1; simp at h1
    · cases hx : jLookup kvs expiredTimeKey with
      | none => exact Or.inl rfl
      | some v =>
        cases v with
        | str s => exact Or.inr ⟨s, rfl⟩
        | null => rw [hx] at h2; simp at h2
        | bool b => rw [hx] at h2; simp at h2
        | num n => rw [hx] at h2; simp at h2
        | arr xs => rw [hx] at h2; simp at h2
        | obj o => rw [hx] at h2; simp at h2
    · cases hx : jLookup kvs dataKey with
      | none => rw [hx] at h3; simp at h3
      | some v =>
        cases v with
        | obj d =>
          rw [hx] at h3
          simp only [Bool.and_eq_true] at h3
          obtain ⟨h4, h5⟩ := h3
          refine ⟨d, rfl, ?_, ?_⟩
          · cases hu : jLookup d userIdKey with
            | none => rw [hu] at h4; simp at h4
            | some u =>
              cases u with
              | str s => exact ⟨s, rfl⟩
              | null => rw [hu] at h4; simp at h4
              | bool b => rw [hu] at h4; simp at h4
              | num n => rw [hu] at h4; simp at h4
              | arr xs => rw [hu] at h4; simp at h4
              | obj o => rw [hu] at h4; simp at h4
          · cases hn : jLookup d usernameKey with
            | none => rw [hn] at h5; simp at h5
            | some u =>
              cases u with
              | str s => exact ⟨s, rfl⟩
              | null => rw [hn] at h5; simp at h5
              | bool b => rw [hn] at h5; simp at h5
              | num n => rw [hn] at h5; simp at h5
              | arr xs => rw [hn] at h5; simp at h5
              | obj o => rw [hn] at h5; simp at h5
        | null => rw [hx] at h3; simp at h3
        | bool b => rw [hx] at h3; simp at h3
        | num n => rw [hx] at h3; simp at h3
        | str s => rw [hx] at h3; simp at h3
        | arr xs => rw [hx] at h3; simp at h3
  · rintro ⟨kvs, rfl, ⟨s1, hc⟩, hexp, ⟨d, hd, ⟨s2, hu⟩, ⟨s3, hn⟩⟩⟩
    rw [isValidSignPayload]
    simp only [Bool.and_eq_true]
    refine ⟨⟨by rw [hc], ?_⟩, by rw [hd]; dsimp only; rw [hu, hn]; rfl⟩
    rcases hexp with he | ⟨s4, he⟩ <;> rw [he]

/-- C9: `signToken` is deterministic, including across payloads whose
object properties were inserted in different orders: semantically equal
well-formed payloads produce identical token strings (the stable
serialization sorts keys at every level). -/
theorem c9_sign_deterministic (S : SignSecret) (P1 P2 : Json)
    (hwf1 : jsonWF P1 = true) (hwf2 : jsonWF P2 = true) (heqv : jsonEqv P1 P2) :
    signToken S P1 = signToken S P2 := by
  have hc : canon P1 = canon P2 := heqv
  have hv : isValidSignPayload P1 = isValidSignPayload P2 := by
    rw [← isValidSignPayload_canon P1 hwf1, ← isValidSignPayload_canon P2 hwf2, hc]
  rw [signToken, signToken, stableStringify, stableStringify, hc, hv]

/-- The repository's first test payload with all properties inserted in
a different order. -/
def testPayloadReordered : Json := Json.obj [
  (dataKey, Json.obj [(usernameKey, Json.str "test".toList),
    (userIdKey, Json.str "test".toList)]),
  (expiredTimeKey, Json.str "2020-12-31T16:00:00.000Z".toList),
  (createdTimeKey, Json.str "2020-12-31T16:00:00.000Z".toList)]

/-- Witness for C9: reordering the properties of the test payload leaves
the signed token unchanged. -/
theorem c9_witness :
    jsonWF testPayload = true ∧ jsonWF testPayloadReordered = true ∧
    jsonEqv testPayload testPayloadReordered ∧
    signToken testSecret testPayload = signToken testSecret testPayloadReordered :=
  ⟨by decide, by decide, rfl,
    c9_sign_deterministic testSecret testPayload testPayloadReordered
      (by decide) (by decide) rfl⟩

/-- C10: `parseToken` performs no structural validation of the decoded
payload: the token `a:b:MQ` parses to a non-null result whose payload is
the JSON number 1, which fails `isValidSignPayload`. -/
theorem c10_parse_without_validation :
    parseToken ("a:b:MQ".toList) = Except.ok (some ⟨"a".toList, Json.num 1⟩) ∧
    isValidSignPayload (Json.num 1) = false :=
  ⟨rfl, rfl⟩

end AuthSdk
